import Mathlib

/-!
Verification of the QR-decomposition core (linalg/qrdecomp/qr.py).

Floating-point numbers are modelled as exact real numbers.  Matrices and
vectors are modelled as total functions on natural-number indices together
with explicitly tracked dimensions; entries outside the tracked dimensions
are junk that no theorem inspects.  The numpy call isclose(x, 0) uses an
absolute tolerance of 1e-8 (rtol contributes nothing against 0), which we
keep literally.  Division is the total real division of Lean (division by
zero yields 0 instead of the IEEE inf/nan junk value; both are junk).
-/

namespace Linalg

noncomputable section

open Classical Finset

/-- Absolute tolerance used by numpy's isclose(x, 0) call in qr.py
(np.isclose default atol=1e-8; the rtol term vanishes against 0). -/
def atol : ℝ := 1e-8

/-- Dot product of the first n coordinates, the model of numpy's
v.T @ w for length-n arrays. -/
def dotn (n : ℕ) (v w : ℕ → ℝ) : ℝ := ∑ t ∈ Finset.range n, v t * w t

/-- Modelled from the spec: utils.l2_norm (linalg/utils.py is not in src/).
Spec 4.2: Euclidean norm, sqrt of the sum of squares. -/
def l2_norm (n : ℕ) (v : ℕ → ℝ) : ℝ := Real.sqrt (dotn n v v)

/-- Modelled from the spec: utils.sign (linalg/utils.py is not in src/).
Spec 4.2: returns +1 if x >= 0, else -1; in particular never 0. -/
def sign (x : ℝ) : ℝ := if 0 ≤ x then 1 else -1

/-- Modelled from the spec: utils.basis_vec (linalg/utils.py is not in src/).
Spec 4.2: the i-th standard basis vector. -/
def basis_vec (i : ℕ) : ℕ → ℝ := fun t => if t = i then 1 else 0

/-- Modelled from the spec: utils.projection (linalg/utils.py is not in src/).
Spec 4.2: projection of u onto v, (u.v / v.v) * v, over length-n vectors. -/
def projection (n : ℕ) (u v : ℕ → ℝ) : ℕ → ℝ :=
  fun t => dotn n u v / dotn n v v * v t

/-- Modelled from the spec: utils.normalize (linalg/utils.py is not in src/).
Spec 4.2: scales v to unit L2 norm. -/
def normalize (n : ℕ) (v : ℕ → ℝ) : ℕ → ℝ := fun t => v t / l2_norm n v

/-- Modelled from the spec: the state of linalg.kahan.KahanSum
(linalg/kahan.py is not in src/).  Spec 4.1: a running total plus a running
correction term. -/
structure KahanState where
  total : ℝ
  correction : ℝ

/-- Modelled from the spec: KahanSum.add.  Spec 4.1: for each new term t,
y = t - correction; temp = total + y; correction = (temp - total) - y;
total = temp. -/
def kahanAdd (st : KahanState) (t : ℝ) : KahanState :=
  let y := t - st.correction
  let temp := st.total + y
  ⟨temp, (temp - st.total) - y⟩

/-- Modelled from the spec: a fresh KahanSum accumulator (sum = 0). -/
def kahanInit : KahanState := ⟨0, 0⟩

/-- Modelled from the spec: KahanSum.result returns the compensated sum. -/
def kahanResult (st : KahanState) : ℝ := st.total

/-- Folding a list of terms through the Kahan accumulator, the model of the
acc.add loop in QR._backward. -/
def kahanRun (l : List ℝ) : KahanState := l.foldl kahanAdd kahanInit

/-! ## Householder elimination (QR.householder, elimination loop) -/

/-- The subdiagonal part of column i: a = A[i:, i] in QR.householder. -/
def subcol (A : ℕ → ℕ → ℝ) (i : ℕ) : ℕ → ℝ := fun t => A (t + i) i

/-- The reflection vector of step i, v = a + sign(a[0]) * l2_norm(a) * e0,
built from the current working matrix A with M rows (QR.householder). -/
def reflVec (M : ℕ) (A : ℕ → ℕ → ℝ) (i : ℕ) : ℕ → ℝ :=
  fun t =>
    subcol A i t +
      sign (subcol A i 0) * l2_norm (M - i) (subcol A i) * basis_vec 0 t

/-- The in-place update col[i:] -= (2 * v.T @ col[i:]) / (v.T @ v) * v of
QR.householder applied to one column of an M-row matrix, rows below i
unchanged. -/
def hhApply (M i : ℕ) (v col : ℕ → ℝ) : ℕ → ℝ :=
  fun r =>
    if i ≤ r then
      col r -
        2 * dotn (M - i) v (fun t => col (t + i)) / dotn (M - i) v v * v (r - i)
    else col r

/-- One elimination step i of QR.householder on the working matrix: when
v.T @ v is not isclose to 0, every column j with i <= j < K receives the
reflection update (the source loops j over range(i, K); the per-column
updates are independent, so they are modelled simultaneously); otherwise the
step is skipped. -/
def hhStep (M K i : ℕ) (A : ℕ → ℕ → ℝ) : ℕ → ℕ → ℝ :=
  let v := reflVec M A i
  if |dotn (M - i) v v| ≤ atol then A
  else fun r c =>
    if i ≤ c ∧ c < K then hhApply M i v (fun r' => A r' c) r else A r c

/-- The working matrix after the first i elimination steps of
QR.householder. -/
def elimUpTo (M K : ℕ) (A0 : ℕ → ℕ → ℝ) : ℕ → (ℕ → ℕ → ℝ)
  | 0 => A0
  | i + 1 => hhStep M K i (elimUpTo M K A0 i)

/-- The upper-triangular factor produced by QR.householder before any
reduce-truncation: the working matrix after all K = min(M, N) steps. -/
def hhR (M N : ℕ) (A0 : ℕ → ℕ → ℝ) : ℕ → ℕ → ℝ :=
  elimUpTo M (min M N) A0 (min M N)

/-- The stored reflection vector of step i (the vs list of
QR.householder). -/
def vsAt (M K : ℕ) (A0 : ℕ → ℕ → ℝ) (i : ℕ) : ℕ → ℝ :=
  reflVec M (elimUpTo M K A0 i) i

/-- One reflection application of the implicit Q construction: the stored v
of step k is applied to rows k.. of a column unless v.T @ v is isclose
to 0 (mirroring the guarded update in QR.householder's Q loop). -/
def qApply (M k : ℕ) (v col : ℕ → ℝ) : ℕ → ℝ :=
  if |dotn (M - k) v v| ≤ atol then col else hhApply M k v col

/-- A column of Q after the first m reflections of the reversed vs list
have been applied (the reversed list visits v_(K-1), ..., v_0, so the m-th
application uses the stored vector of step K - m). -/
def qColSteps (M K : ℕ) (A0 : ℕ → ℕ → ℝ) (col : ℕ → ℝ) : ℕ → (ℕ → ℝ)
  | 0 => col
  | m + 1 => qApply M (K - (m + 1)) (vsAt M K A0 (K - (m + 1)))
      (qColSteps M K A0 col m)

/-- The orthogonal factor of QR.householder before any reduce-truncation:
column c is the c-th identity column with all K stored reflections applied
in reverse order. -/
def hhQ (M K : ℕ) (A0 : ℕ → ℕ → ℝ) : ℕ → ℕ → ℝ :=
  fun r c => qColSteps M K A0 (basis_vec c) K r

/-- Refinement reference for claim C1, following the spec's words rather
than the source: the spec says the reflection update is applied to every
column j >= i, i.e. the column range is i <= j < N instead of the source's
range(i, K). -/
def hhStepSpecC1 (M N i : ℕ) (A : ℕ → ℕ → ℝ) : ℕ → ℕ → ℝ :=
  let v := reflVec M A i
  if |dotn (M - i) v v| ≤ atol then A
  else fun r c =>
    if i ≤ c ∧ c < N then hhApply M i v (fun r' => A r' c) r else A r c

/-- Refinement reference for claim C1: the elimination with the spec's
all-columns update range, after the first i steps. -/
def elimUpToSpecC1 (M N : ℕ) (A0 : ℕ → ℕ → ℝ) : ℕ → (ℕ → ℕ → ℝ)
  | 0 => A0
  | i + 1 => hhStepSpecC1 M N i (elimUpToSpecC1 M N A0 i)

/-- Refinement reference for claim C1: the R factor the spec's words
describe (update applied to every column j >= i at each of the K steps). -/
def hhRspecC1 (M N : ℕ) (A0 : ℕ → ℕ → ℝ) : ℕ → ℕ → ℝ :=
  elimUpToSpecC1 M N A0 (min M N)

/-! ## Gram-Schmidt (QR.gram_schmidt and QR.gram_schmidt_modified) -/

/-- Sequential projection subtraction for column i of classical
Gram-Schmidt: after j inner iterations, column i of the working matrix B
has had its projections onto (already orthonormalized) columns 0..j-1
subtracted one at a time. -/
def gsInner (M : ℕ) (B : ℕ → ℕ → ℝ) (i : ℕ) : ℕ → (ℕ → ℝ)
  | 0 => fun r => B r i
  | j + 1 => fun r =>
      gsInner M B i j r - projection M (gsInner M B i j) (fun r' => B r' j) r

/-- One outer step of classical Gram-Schmidt: column i is reduced against
columns 0..i-1 and then normalized; for i = 0 the reduction is empty, which
matches the initial A[:, 0] /= l2_norm(A[:, 0]) line.  Other columns are
unchanged. -/
def gsStep (M : ℕ) (B : ℕ → ℕ → ℝ) (i : ℕ) : ℕ → ℕ → ℝ :=
  fun r c => if c = i then normalize M (gsInner M B i i) r else B r c

/-- The working matrix of QR.gram_schmidt after the first i columns have
been processed. -/
def gsUpTo (M : ℕ) (A0 : ℕ → ℕ → ℝ) : ℕ → (ℕ → ℕ → ℝ)
  | 0 => A0
  | i + 1 => gsStep M (gsUpTo M A0 i) i

/-- The Q factor of QR.gram_schmidt: the working matrix after all N
columns are processed. -/
def gsQ (M N : ℕ) (A0 : ℕ → ℕ → ℝ) : ℕ → ℕ → ℝ := gsUpTo M A0 N

/-- The R factor of QR.gram_schmidt: R = Q.T @ A_original (the source
copies A into R before orthogonalizing, then sets R = Q.T R). -/
def gsR (M N : ℕ) (A0 : ℕ → ℕ → ℝ) : ℕ → ℕ → ℝ :=
  fun i j => dotn M (fun r => gsQ M N A0 r i) (fun r => A0 r j)

/-- One outer step of QR.gram_schmidt_modified: column i is normalized
first, then every column j > i has its projection onto the freshly
normalized column i subtracted. -/
def mgsStep (M N : ℕ) (B : ℕ → ℕ → ℝ) (i : ℕ) : ℕ → ℕ → ℝ :=
  fun r c =>
    if c = i then normalize M (fun r' => B r' i) r
    else if i < c ∧ c < N then
      B r c - projection M (fun r' => B r' c) (normalize M (fun r' => B r' i)) r
    else B r c

/-- The working matrix of QR.gram_schmidt_modified after the first i outer
steps. -/
def mgsUpTo (M N : ℕ) (A0 : ℕ → ℕ → ℝ) : ℕ → (ℕ → ℕ → ℝ)
  | 0 => A0
  | i + 1 => mgsStep M N (mgsUpTo M N A0 i) i

/-- The Q factor of QR.gram_schmidt_modified. -/
def mgsQ (M N : ℕ) (A0 : ℕ → ℕ → ℝ) : ℕ → ℕ → ℝ := mgsUpTo M N A0 N

/-- The R factor of QR.gram_schmidt_modified: R = Q.T @ A_original. -/
def mgsR (M N : ℕ) (A0 : ℕ → ℕ → ℝ) : ℕ → ℕ → ℝ :=
  fun i j => dotn M (fun r => mgsQ M N A0 r i) (fun r => A0 r j)

/-! ## The QR engine: shapes, state and solve -/

/-- A dense 2-D numpy array: tracked shape plus an entry function (entries
outside the shape are junk). -/
structure Mat where
  rows : ℕ
  cols : ℕ
  entry : ℕ → ℕ → ℝ

/-- A numpy ndarray of dimension 0, 1 or 2, the possible shapes of the
right-hand side b, of y and of the solution x. -/
inductive Arr where
  | a0 (x : ℝ)
  | a1 (n : ℕ) (f : ℕ → ℝ)
  | a2 (m n : ℕ) (f : ℕ → ℕ → ℝ)

/-- Number of axes of an ndarray (ndarray.ndim). -/
def Arr.ndim : Arr → ℕ
  | .a0 _ => 0
  | .a1 _ _ => 1
  | .a2 _ _ _ => 2

/-- Leading dimension (shape[0]) of a 1-D or 2-D ndarray; 0 for 0-D. -/
def Arr.dim0 : Arr → ℕ
  | .a0 _ => 0
  | .a1 n _ => n
  | .a2 m _ _ => m

/-- Matrix product over the tracked shapes, used to state A = Q R. -/
def matMul (P Q : Mat) : Mat :=
  ⟨P.rows, Q.cols,
    fun r c => dotn P.cols (fun t => P.entry r t) (fun t => Q.entry t c)⟩

/-- The state of a QR engine object: the pristine backup and the reduce
flag set by QR.__init__, plus the instance attributes the methods assign
(absent before the first assignment). -/
structure Engine where
  backup : Mat
  reduce : Bool
  A : Option Mat
  Q : Option Mat
  R : Option Mat
  b : Option Arr
  y : Option Arr
  x : Option Arr

/-- QR.__init__: store the pristine backup and the reduce flag; no other
attribute exists yet. -/
def QRinit (A : Mat) (reduce : Bool) : Engine :=
  ⟨A, reduce, none, none, none, none, none, none⟩

/-- QR.householder as a state transformer: recompute the working matrix
from the backup, eliminate, build Q implicitly, truncate Q to its first K
columns and R to its first K rows when reduce is set, and return (Q, R). -/
def Engine.householder (s : Engine) : Engine × (Mat × Mat) :=
  let M := s.backup.rows
  let N := s.backup.cols
  let K := min M N
  let Afull : Mat := ⟨M, N, hhR M N s.backup.entry⟩
  let Qfull : Mat := ⟨M, M, hhQ M K s.backup.entry⟩
  let Q : Mat := if s.reduce then ⟨M, K, Qfull.entry⟩ else Qfull
  let R : Mat := if s.reduce then ⟨K, N, Afull.entry⟩ else Afull
  ({ s with A := some Afull, Q := some Q, R := some R }, (Q, R))

/-- QR.decompose dispatches to QR.householder. -/
def Engine.decompose (s : Engine) : Engine × (Mat × Mat) :=
  s.householder

/-- QR.gram_schmidt as a state transformer: after the call the working
matrix attribute and Q are the same orthonormalized matrix and
R = Q.T @ A_original. -/
def Engine.gram_schmidt (s : Engine) : Engine × (Mat × Mat) :=
  let M := s.backup.rows
  let N := s.backup.cols
  let Q : Mat := ⟨M, N, gsQ M N s.backup.entry⟩
  let R : Mat := ⟨N, N, gsR M N s.backup.entry⟩
  ({ s with A := some Q, Q := some Q, R := some R }, (Q, R))

/-- QR.gram_schmidt_modified as a state transformer. -/
def Engine.gram_schmidt_modified (s : Engine) : Engine × (Mat × Mat) :=
  let M := s.backup.rows
  let N := s.backup.cols
  let Q : Mat := ⟨M, N, mgsQ M N s.backup.entry⟩
  let R : Mat := ⟨N, N, mgsR M N s.backup.entry⟩
  ({ s with A := some Q, Q := some Q, R := some R }, (Q, R))

/-- The error raised inside QR._backward: np.dot(Q.T, b) raises a numpy
ValueError when b's leading dimension does not match Q's row count.  No
other operation of qr.py can raise. -/
inductive SolveError where
  | shapeMismatch

/-- np.dot(Q.T, b) with numpy's semantics: a 0-D operand multiplies
elementwise, a 1-D or 2-D operand requires its leading dimension to equal
Q's row count and otherwise raises. -/
def dotQT (Q : Mat) (b : Arr) : Except SolveError Arr :=
  match b with
  | .a0 x => .ok (.a2 Q.cols Q.rows (fun i j => Q.entry j i * x))
  | .a1 n f =>
    if n = Q.rows then
      .ok (.a1 Q.cols (fun c => dotn Q.rows (fun r => Q.entry r c) f))
    else .error .shapeMismatch
  | .a2 m k f =>
    if m = Q.rows then
      .ok (.a2 Q.cols k
        (fun c j => dotn Q.rows (fun r => Q.entry r c) (fun r => f r j)))
    else .error .shapeMismatch

/-- The back-substitution loop of QR._backward for one right-hand-side
column, after m assignments: rows K-1 down to K-m hold their computed
values, every other row still holds the zeros-initialized 0.  The inner
sum walks j from K-1 down to i+1 through the Kahan accumulator. -/
def backSubCol (Rm : ℕ → ℕ → ℝ) (K : ℕ) (ycol : ℕ → ℝ) : ℕ → (ℕ → ℝ)
  | 0 => fun _ => 0
  | m + 1 =>
    let x := backSubCol Rm K ycol m
    let i := K - (m + 1)
    fun r =>
      if r = i then
        (ycol i - kahanResult (kahanRun ((List.range (K - 1 - i)).map
          (fun t => Rm i (K - 1 - t) * x (K - 1 - t))))) / Rm i i
      else x r

/-- The solution column of QR._backward: all K rows assigned, rows K..N-1
left at their zeros-initialized value. -/
def bsub (Rm : ℕ → ℕ → ℝ) (K : ℕ) (ycol : ℕ → ℝ) : ℕ → ℝ :=
  backSubCol Rm K ycol K

/-- QR._backward as a state transformer, reading the Q and R the preceding
householder call stored: compute y = np.dot(Q.T, b) (raising on a shape
mismatch), reshape a 1-D y to a column, back-substitute each right-hand
side, and squeeze the result when b was 1-D. -/
def Engine.backward (s : Engine) (Q R : Mat) (b : Arr) :
    Engine × Except SolveError Arr :=
  let N := R.cols
  let K := min R.rows R.cols
  match dotQT Q b with
  | .error e => (s, .error e)
  | .ok y0 =>
    let y : Arr := match y0 with
      | .a1 n f => .a2 n 1 (fun i _ => f i)
      | other => other
    let numIters : ℕ := match b with
      | .a2 _ k _ => k
      | _ => 1
    let yent : ℕ → ℕ → ℝ := match y with
      | .a2 _ _ g => g
      | .a1 _ f => fun i _ => f i
      | .a0 v => fun _ _ => v
    let xf : ℕ → ℕ → ℝ := fun i k => bsub R.entry K (fun i' => yent i' k) i
    let x : Arr :=
      if b.ndim = 1 then
        (if N = 1 then .a0 (xf 0 0) else .a1 N (fun i => xf i 0))
      else .a2 N numIters xf
    ({ s with y := some y, x := some x }, .ok x)

/-- QR.solve as a state transformer: store b, run QR.householder (with the
engine's reduce flag, as the source does), then run QR._backward on the
stored Q and R. -/
def Engine.solve (s : Engine) (b : Arr) : Engine × Except SolveError Arr :=
  let s1 : Engine := { s with b := some b }
  let hr := s1.householder
  hr.1.backward hr.2.1 hr.2.2 b

/-! ## Basic algebra of the dot product and the reflection vector -/

theorem dotn_self_nonneg (n : ℕ) (v : ℕ → ℝ) : 0 ≤ dotn n v v :=
  Finset.sum_nonneg fun t _ => mul_self_nonneg (v t)

theorem sq_le_dotn_self (n : ℕ) (v : ℕ → ℝ) (t : ℕ) (ht : t < n) :
    v t * v t ≤ dotn n v v := by
  unfold dotn
  exact Finset.single_le_sum (f := fun u => v u * v u)
    (fun u _ => mul_self_nonneg (v u)) (Finset.mem_range.mpr ht)

theorem l2_norm_nonneg (n : ℕ) (v : ℕ → ℝ) : 0 ≤ l2_norm n v :=
  Real.sqrt_nonneg _

theorem l2_norm_mul_self (n : ℕ) (v : ℕ → ℝ) :
    l2_norm n v * l2_norm n v = dotn n v v := by
  unfold l2_norm
  exact Real.mul_self_sqrt (dotn_self_nonneg n v)

theorem sign_mul_sign (x : ℝ) : sign x * sign x = 1 := by
  unfold sign
  by_cases h : 0 ≤ x <;> simp [h]

theorem sign_mul_self_eq_abs (x : ℝ) : sign x * x = |x| := by
  unfold sign
  by_cases h : 0 ≤ x
  · simp [h, abs_of_nonneg h]
  · simp [h, abs_of_neg (lt_of_not_le h)]

theorem dotn_addBasis_self (n : ℕ) (hn : 0 < n) (a : ℕ → ℝ) (w : ℝ) :
    dotn n (fun t => a t + w * basis_vec 0 t) (fun t => a t + w * basis_vec 0 t)
      = dotn n a a + 2 * w * a 0 + w * w := by
  unfold dotn basis_vec
  have expand : ∀ t : ℕ,
      (a t + w * (if t = 0 then (1:ℝ) else 0)) *
        (a t + w * (if t = 0 then (1:ℝ) else 0))
      = a t * a t + (if t = 0 then 2 * w * a t + w * w else 0) := by
    intro t
    by_cases ht : t = 0 <;> simp [ht] <;> ring
  simp only [expand]
  rw [Finset.sum_add_distrib, Finset.sum_ite_eq' (Finset.range n) 0]
  simp only [Finset.mem_range, hn, if_pos]
  ring

theorem dotn_addBasis_left (n : ℕ) (hn : 0 < n) (a : ℕ → ℝ) (w : ℝ) :
    dotn n (fun t => a t + w * basis_vec 0 t) a = dotn n a a + w * a 0 := by
  unfold dotn basis_vec
  have expand : ∀ t : ℕ,
      (a t + w * (if t = 0 then (1:ℝ) else 0)) * a t
      = a t * a t + (if t = 0 then w * a t else 0) := by
    intro t
    by_cases ht : t = 0 <;> simp [ht] <;> ring
  simp only [expand]
  rw [Finset.sum_add_distrib, Finset.sum_ite_eq' (Finset.range n) 0]
  simp [Finset.mem_range, hn]

theorem reflVec_eq_addBasis (M : ℕ) (A : ℕ → ℕ → ℝ) (i : ℕ) :
    reflVec M A i = fun t =>
      subcol A i t +
        (sign (subcol A i 0) * l2_norm (M - i) (subcol A i)) * basis_vec 0 t := by
  funext t
  simp [reflVec, mul_assoc]

/-- v.T v = 2 (a.a + s c a0) for the reflection vector of step i. -/
theorem dotn_reflVec_self (M : ℕ) (A : ℕ → ℕ → ℝ) (i : ℕ) (h : 0 < M - i) :
    dotn (M - i) (reflVec M A i) (reflVec M A i)
      = 2 * (dotn (M - i) (subcol A i) (subcol A i) +
          sign (subcol A i 0) * l2_norm (M - i) (subcol A i) * subcol A i 0) := by
  rw [reflVec_eq_addBasis, dotn_addBasis_self (M - i) h]
  have hs : (sign (subcol A i 0) * l2_norm (M - i) (subcol A i)) *
      (sign (subcol A i 0) * l2_norm (M - i) (subcol A i))
      = dotn (M - i) (subcol A i) (subcol A i) := by
    have := sign_mul_sign (subcol A i 0)
    have h2 := l2_norm_mul_self (M - i) (subcol A i)
    calc (sign (subcol A i 0) * l2_norm (M - i) (subcol A i)) *
        (sign (subcol A i 0) * l2_norm (M - i) (subcol A i))
        = (sign (subcol A i 0) * sign (subcol A i 0)) *
          (l2_norm (M - i) (subcol A i) * l2_norm (M - i) (subcol A i)) := by ring
      _ = dotn (M - i) (subcol A i) (subcol A i) := by rw [this, h2]; ring
  rw [hs]; ring

/-- v.T a = a.a + s c a0 for the reflection vector of step i. -/
theorem dotn_reflVec_subcol (M : ℕ) (A : ℕ → ℕ → ℝ) (i : ℕ) (h : 0 < M - i) :
    dotn (M - i) (reflVec M A i) (subcol A i)
      = dotn (M - i) (subcol A i) (subcol A i) +
          sign (subcol A i 0) * l2_norm (M - i) (subcol A i) * subcol A i 0 := by
  rw [reflVec_eq_addBasis, dotn_addBasis_left (M - i) h]

/-- The central exact identity behind the annihilation: v.T v is exactly
twice v.T a. -/
theorem dotn_reflVec_self_eq_two_mul (M : ℕ) (A : ℕ → ℕ → ℝ) (i : ℕ)
    (h : 0 < M - i) :
    dotn (M - i) (reflVec M A i) (reflVec M A i)
      = 2 * dotn (M - i) (reflVec M A i) (subcol A i) := by
  rw [dotn_reflVec_self M A i h, dotn_reflVec_subcol M A i h]

/-- v.T v = 2 c (c + abs a0), hence nonnegative. -/
theorem dotn_reflVec_self_eq_norm_form (M : ℕ) (A : ℕ → ℕ → ℝ) (i : ℕ)
    (h : 0 < M - i) :
    dotn (M - i) (reflVec M A i) (reflVec M A i)
      = 2 * l2_norm (M - i) (subcol A i) *
          (l2_norm (M - i) (subcol A i) + |subcol A i 0|) := by
  rw [dotn_reflVec_self M A i h, ← l2_norm_mul_self (M - i) (subcol A i)]
  have habs : sign (subcol A i 0) * subcol A i 0 = |subcol A i 0| :=
    sign_mul_self_eq_abs _
  calc 2 * (l2_norm (M - i) (subcol A i) * l2_norm (M - i) (subcol A i) +
        sign (subcol A i 0) * l2_norm (M - i) (subcol A i) * subcol A i 0)
      = 2 * l2_norm (M - i) (subcol A i) *
        (l2_norm (M - i) (subcol A i) + sign (subcol A i 0) * subcol A i 0) := by
        ring
    _ = _ := by rw [habs]

/-- When the step-i skip test fires, the whole subcolumn a = A[i:, i] is
small: every entry is at most sqrt(atol / 2) in absolute value. -/
theorem subcol_small_of_skip (M : ℕ) (A : ℕ → ℕ → ℝ) (i : ℕ) (h : 0 < M - i)
    (hskip : |dotn (M - i) (reflVec M A i) (reflVec M A i)| ≤ atol) :
    ∀ t, t < M - i → |subcol A i t| ≤ Real.sqrt (atol / 2) := by
  intro t ht
  have hvv : dotn (M - i) (reflVec M A i) (reflVec M A i)
      = 2 * l2_norm (M - i) (subcol A i) *
        (l2_norm (M - i) (subcol A i) + |subcol A i 0|) :=
    dotn_reflVec_self_eq_norm_form M A i h
  have hnn : 0 ≤ dotn (M - i) (reflVec M A i) (reflVec M A i) :=
    dotn_self_nonneg _ _
  have hle : dotn (M - i) (reflVec M A i) (reflVec M A i) ≤ atol := by
    rwa [abs_of_nonneg hnn] at hskip
  have haa : 2 * dotn (M - i) (subcol A i) (subcol A i)
      ≤ dotn (M - i) (reflVec M A i) (reflVec M A i) := by
    rw [hvv, ← l2_norm_mul_self (M - i) (subcol A i)]
    have h1 : 0 ≤ l2_norm (M - i) (subcol A i) := l2_norm_nonneg _ _
    have h2 : 0 ≤ |subcol A i 0| := abs_nonneg _
    nlinarith
  have hsq : subcol A i t * subcol A i t ≤ atol / 2 := by
    have := sq_le_dotn_self (M - i) (subcol A i) t ht
    linarith
  have : |subcol A i t| = Real.sqrt (subcol A i t * subcol A i t) := by
    rw [← Real.sqrt_mul_self (abs_nonneg (subcol A i t)), abs_mul_abs_self]
  rw [this]
  exact Real.sqrt_le_sqrt hsq

/-! ## Column behavior of the elimination steps -/

theorem hhStep_untouched (M K i : ℕ) (A : ℕ → ℕ → ℝ) (r c : ℕ)
    (h : c < i ∨ K ≤ c) : hhStep M K i A r c = A r c := by
  unfold hhStep
  by_cases hskip :
      |dotn (M - i) (reflVec M A i) (reflVec M A i)| ≤ atol
  · simp [hskip]
  · have hc : ¬ (i ≤ c ∧ c < K) := by
      rcases h with h | h
      · exact fun hand => absurd hand.1 (not_le.mpr h)
      · exact fun hand => absurd hand.2 (not_lt.mpr h)
    simp [hskip, hc]

theorem hhStep_skip (M K i : ℕ) (A : ℕ → ℕ → ℝ)
    (hskip : |dotn (M - i) (reflVec M A i) (reflVec M A i)| ≤ atol) :
    hhStep M K i A = A := by
  unfold hhStep
  simp [hskip]

theorem qApply_skip (M k : ℕ) (v col : ℕ → ℝ)
    (hskip : |dotn (M - k) v v| ≤ atol) : qApply M k v col = col := by
  unfold qApply
  simp [hskip]

theorem elimUpTo_col_frozen (M K : ℕ) (A0 : ℕ → ℕ → ℝ) (c : ℕ) :
    ∀ m, c + 1 ≤ m → ∀ r,
      elimUpTo M K A0 m r c = elimUpTo M K A0 (c + 1) r c := by
  intro m
  induction m with
  | zero => intro h; exact absurd h (by omega)
  | succ m ih =>
    intro h r
    rcases Nat.lt_or_ge c m with hlt | hge
    · have hstep : elimUpTo M K A0 (m + 1) r c = elimUpTo M K A0 m r c :=
        hhStep_untouched M K m (elimUpTo M K A0 m) r c (Or.inl hlt)
      rw [hstep]
      exact ih (by omega) r
    · have hmc : m = c := by omega
      subst hmc
      rfl

theorem elimUpTo_col_ge_K (M K : ℕ) (A0 : ℕ → ℕ → ℝ) (c : ℕ) (hc : K ≤ c) :
    ∀ m r, elimUpTo M K A0 m r c = A0 r c := by
  intro m
  induction m with
  | zero => intro r; rfl
  | succ m ih =>
    intro r
    have hstep : elimUpTo M K A0 (m + 1) r c = elimUpTo M K A0 m r c :=
      hhStep_untouched M K m (elimUpTo M K A0 m) r c (Or.inr hc)
    rw [hstep]
    exact ih r

/-- A non-skipped elimination step i sets every entry of column i strictly
below the diagonal to exactly 0 (in exact arithmetic). -/
theorem hhStep_annihilates (M K i : ℕ) (A : ℕ → ℕ → ℝ) (hi : i < M)
    (hiK : i < K)
    (hns : ¬ |dotn (M - i) (reflVec M A i) (reflVec M A i)| ≤ atol) :
    ∀ r, i < r → hhStep M K i A r i = 0 := by
  intro r hr
  have hn : 0 < M - i := by omega
  have hvv_ne : dotn (M - i) (reflVec M A i) (reflVec M A i) ≠ 0 := by
    intro h0
    apply hns
    rw [h0]
    rw [abs_zero]
    unfold atol
    norm_num
  unfold hhStep
  simp only [hns, if_false]
  rw [if_pos ⟨le_refl i, hiK⟩]
  unfold hhApply
  rw [if_pos (le_of_lt hr)]
  have hsub : (fun t => A (t + i) i) = subcol A i := rfl
  rw [hsub]
  have h2 : 2 * dotn (M - i) (reflVec M A i) (subcol A i)
      = dotn (M - i) (reflVec M A i) (reflVec M A i) :=
    (dotn_reflVec_self_eq_two_mul M A i hn).symm
  rw [h2, div_self hvv_ne, one_mul]
  have hvr : reflVec M A i (r - i) = subcol A i (r - i) := by
    unfold reflVec basis_vec
    have : r - i ≠ 0 := Nat.sub_ne_zero_of_lt hr
    simp [this]
  rw [hvr]
  have hAr : A r i = subcol A i (r - i) := by
    unfold subcol
    rw [Nat.sub_add_cancel (le_of_lt hr)]
  show A r i - subcol A i (r - i) = 0
  rw [hAr, sub_self]

/-- Below-diagonal entries of the R produced by QR.householder: exactly 0
when the column's step ran, and at most sqrt(atol / 2) in absolute value
when the step was skipped by the isclose test. -/
theorem hhR_below_diag (M N : ℕ) (A0 : ℕ → ℕ → ℝ) (r c : ℕ)
    (hr : r < M) (hc : c < N) (hcr : c < r) :
    hhR M N A0 r c = 0 ∨ |hhR M N A0 r c| ≤ Real.sqrt (atol / 2) := by
  have hcM : c < M := lt_trans hcr hr
  have hcK : c < min M N := lt_min hcM hc
  have hfrozen : hhR M N A0 r c = elimUpTo M (min M N) A0 (c + 1) r c :=
    elimUpTo_col_frozen M (min M N) A0 c (min M N) hcK r
  by_cases hskip : |dotn (M - c) (reflVec M (elimUpTo M (min M N) A0 c) c)
      (reflVec M (elimUpTo M (min M N) A0 c) c)| ≤ atol
  · right
    have hstep : elimUpTo M (min M N) A0 (c + 1) r c
        = elimUpTo M (min M N) A0 c r c := by
      have : elimUpTo M (min M N) A0 (c + 1)
          = hhStep M (min M N) c (elimUpTo M (min M N) A0 c) := rfl
      rw [this, hhStep_skip M (min M N) c _ hskip]
    rw [hfrozen, hstep]
    have hbound := subcol_small_of_skip M (elimUpTo M (min M N) A0 c) c
      (by omega) hskip (r - c) (by omega)
    have hval : subcol (elimUpTo M (min M N) A0 c) c (r - c)
        = elimUpTo M (min M N) A0 c r c := by
      unfold subcol
      rw [Nat.sub_add_cancel (le_of_lt hcr)]
    rwa [hval] at hbound
  · left
    rw [hfrozen]
    exact hhStep_annihilates M (min M N) c (elimUpTo M (min M N) A0 c)
      hcM hcK hskip r hcr

/-! ## Evaluation helpers for concrete inputs -/

theorem dotn_zero (v w : ℕ → ℝ) : dotn 0 v w = 0 := by
  simp [dotn]

theorem dotn_succ (n : ℕ) (v w : ℕ → ℝ) :
    dotn (n + 1) v w = dotn n v w + v n * w n :=
  Finset.sum_range_succ _ _

/-! ## Claim C1 -/

/-- Claim C1, amended: at each elimination step i whose reflection vector
is not approximately zero, the update A[i:,j] -= (2 v.T A[i:,j] / v.T v) v
is applied to every column i <= j < K = min(M,N) (not to every column
j >= i: columns K..N-1 are never updated), while every other column is left
unchanged; and after all K steps every entry of the returned R strictly
below the main diagonal is exactly zero if its column's step ran, and of
absolute value at most sqrt(atol / 2) if its column's step was skipped by
the isclose test. -/
theorem claim_C1_elimination_range_and_triangular :
    (∀ M N i (A : ℕ → ℕ → ℝ) (r c : ℕ),
        ¬ |dotn (M - i) (reflVec M A i) (reflVec M A i)| ≤ atol →
        i ≤ c → c < min M N →
        hhStep M (min M N) i A r c
          = hhApply M i (reflVec M A i) (fun r' => A r' c) r) ∧
    (∀ M N i (A : ℕ → ℕ → ℝ) (r c : ℕ), c < i ∨ min M N ≤ c →
        hhStep M (min M N) i A r c = A r c) ∧
    (∀ M N (A0 : ℕ → ℕ → ℝ) (r c : ℕ), r < M → c < N → c < r →
        hhR M N A0 r c = 0 ∨ |hhR M N A0 r c| ≤ Real.sqrt (atol / 2)) := by
  refine ⟨?_, ?_, ?_⟩
  · intro M N i A r c hns hic hcK
    unfold hhStep
    simp only [hns, if_false]
    rw [if_pos ⟨hic, hcK⟩]
  · intro M N i A r c h
    exact hhStep_untouched M (min M N) i A r c h
  · intro M N A0 r c hr hc hcr
    exact hhR_below_diag M N A0 r c hr hc hcr

/-- The 1 x 2 matrix [[1, 2]] used to separate the source's column range
from the spec's. -/
def exC1 : ℕ → ℕ → ℝ := fun _ c => if c = 0 then 1 else 2

theorem exC1_norm : l2_norm 1 (subcol exC1 0) = 1 := by
  unfold l2_norm
  rw [dotn_succ, dotn_zero]
  norm_num [subcol, exC1, Real.sqrt_one]

theorem exC1_refl0 : reflVec 1 exC1 0 0 = 2 := by
  unfold reflVec
  rw [exC1_norm]
  norm_num [subcol, exC1, sign, basis_vec]

theorem exC1_dvv : dotn 1 (reflVec 1 exC1 0) (reflVec 1 exC1 0) = 4 := by
  rw [dotn_succ, dotn_zero, exC1_refl0]
  norm_num

theorem exC1_ns :
    ¬ |dotn (1 - 0) (reflVec 1 exC1 0) (reflVec 1 exC1 0)| ≤ atol := by
  show ¬ |dotn 1 (reflVec 1 exC1 0) (reflVec 1 exC1 0)| ≤ atol
  rw [exC1_dvv]
  unfold atol
  norm_num

/-- Claim C1, counterexample: on the 1 x 2 input [[1, 2]] (M = 1, N = 2,
K = 1) the non-degenerate step i = 0 leaves column 1 at its original value
2, whereas applying the update to every column j >= i, as the claim states,
would set it to -2. -/
theorem claim_C1_counterexample :
    hhR 1 2 exC1 0 1 = 2 ∧ hhRspecC1 1 2 exC1 0 1 = -2 := by
  constructor
  · have huntouched : hhR 1 2 exC1 0 1 = exC1 0 1 := by
      unfold hhR
      exact elimUpTo_col_ge_K 1 (min 1 2) exC1 1 (by norm_num) (min 1 2) 0
    rw [huntouched]
    norm_num [exC1]
  · show hhStepSpecC1 1 2 0 exC1 0 1 = -2
    unfold hhStepSpecC1
    simp only [exC1_ns, if_false]
    rw [if_pos (by omega : (0:ℕ) ≤ 1 ∧ (1:ℕ) < 2)]
    unfold hhApply
    rw [if_pos (le_refl 0)]
    have hcol : (fun t => exC1 (t + 0) 1) = fun _ => (2:ℝ) := by
      funext t
      simp [exC1]
    have hdvc : dotn (1 - 0) (reflVec 1 exC1 0) (fun t => exC1 (t + 0) 1)
        = 4 := by
      rw [hcol]
      show dotn 1 (reflVec 1 exC1 0) (fun _ => (2:ℝ)) = 4
      rw [dotn_succ, dotn_zero, exC1_refl0]
      norm_num
    rw [hdvc]
    have hdvv : dotn (1 - 0) (reflVec 1 exC1 0) (reflVec 1 exC1 0) = 4 :=
      exC1_dvv
    rw [hdvv, exC1_refl0]
    norm_num [exC1]

/-- Witness for the C1 theorem: on the 2 x 1 input [[3], [4]] the entry of
R below the diagonal is exactly zero. -/
def exC1w : ℕ → ℕ → ℝ := fun r _ => if r = 0 then 3 else 4

theorem claim_C1_witness :
    (1 : ℕ) < 2 ∧ (0 : ℕ) < 1 ∧ (0 : ℕ) < 1 ∧
    (hhR 2 1 exC1w 1 0 = 0 ∨ |hhR 2 1 exC1w 1 0| ≤ Real.sqrt (atol / 2)) :=
  ⟨by norm_num, by norm_num, by norm_num,
    claim_C1_elimination_range_and_triangular.2.2 2 1 exC1w 1 0
      (by norm_num) (by norm_num) (by norm_num)⟩

/-! ## Claim C8 -/

/-- Claim C8: a Householder step whose reflection vector v has v.T v
approximately zero (isclose within atol) is skipped both during the
elimination and during the implicit construction of Q, so the step acts as
the identity in both loops; the subcolumn is indeed degenerate (every
entry at most sqrt(atol / 2) in absolute value), and no error arises: the
factorization is total. -/
theorem claim_C8_degenerate_reflection_skipped (M K i : ℕ)
    (A : ℕ → ℕ → ℝ) (hi : i < M)
    (hskip : |dotn (M - i) (reflVec M A i) (reflVec M A i)| ≤ atol) :
    hhStep M K i A = A ∧
    (∀ col, qApply M i (reflVec M A i) col = col) ∧
    (∀ t, t < M - i → |subcol A i t| ≤ Real.sqrt (atol / 2)) :=
  ⟨hhStep_skip M K i A hskip,
    fun col => qApply_skip M i (reflVec M A i) col hskip,
    subcol_small_of_skip M A i (by omega) hskip⟩

/-- The 1 x 1 zero matrix. -/
def zeroM : ℕ → ℕ → ℝ := fun _ _ => 0

theorem zeroM_skip :
    |dotn (1 - 0) (reflVec 1 zeroM 0) (reflVec 1 zeroM 0)| ≤ atol := by
  have hv : reflVec 1 zeroM 0 0 = 0 := by
    unfold reflVec l2_norm
    rw [dotn_succ, dotn_zero]
    norm_num [subcol, zeroM, sign, basis_vec, Real.sqrt_zero]
  show |dotn 1 (reflVec 1 zeroM 0) (reflVec 1 zeroM 0)| ≤ atol
  rw [dotn_succ, dotn_zero, hv]
  unfold atol
  norm_num

/-- Witness for the C8 theorem at the concrete degenerate input [[0]]. -/
theorem claim_C8_witness :
    (0 : ℕ) < 1 ∧
    |dotn (1 - 0) (reflVec 1 zeroM 0) (reflVec 1 zeroM 0)| ≤ atol ∧
    (hhStep 1 1 0 zeroM = zeroM ∧
      (∀ col, qApply 1 0 (reflVec 1 zeroM 0) col = col) ∧
      (∀ t, t < 1 - 0 → |subcol zeroM 0 t| ≤ Real.sqrt (atol / 2))) :=
  ⟨by norm_num, zeroM_skip,
    claim_C8_degenerate_reflection_skipped 1 1 0 zeroM (by norm_num)
      zeroM_skip⟩

/-! ## Linearity, involution and fixing of the reflection applications -/

theorem dotn_finsum_right {ι : Type} (s : Finset ι) (n : ℕ) (v : ℕ → ℝ)
    (g : ι → ℝ) (w : ι → ℕ → ℝ) :
    dotn n v (fun t => ∑ u ∈ s, g u * w u t)
      = ∑ u ∈ s, g u * dotn n v (w u) := by
  unfold dotn
  calc ∑ t ∈ Finset.range n, v t * ∑ u ∈ s, g u * w u t
      = ∑ t ∈ Finset.range n, ∑ u ∈ s, g u * (v t * w u t) := by
        refine Finset.sum_congr rfl fun t _ => ?_
        rw [Finset.mul_sum]
        exact Finset.sum_congr rfl fun u _ => by ring
    _ = ∑ u ∈ s, ∑ t ∈ Finset.range n, g u * (v t * w u t) := Finset.sum_comm
    _ = ∑ u ∈ s, g u * ∑ t ∈ Finset.range n, v t * w u t := by
        refine Finset.sum_congr rfl fun u _ => ?_
        rw [Finset.mul_sum]

theorem dotn_zero_right (n : ℕ) (v w : ℕ → ℝ) (h : ∀ t, t < n → w t = 0) :
    dotn n v w = 0 := by
  unfold dotn
  refine Finset.sum_eq_zero fun t ht => ?_
  rw [h t (Finset.mem_range.mp ht), mul_zero]

theorem dotn_sub_smul_right (n : ℕ) (v w : ℕ → ℝ) (mu : ℝ) :
    dotn n v (fun t => w t - mu * v t) = dotn n v w - mu * dotn n v v := by
  unfold dotn
  rw [Finset.mul_sum, ← Finset.sum_sub_distrib]
  exact Finset.sum_congr rfl fun t _ => by ring

theorem hhApply_finsum {ι : Type} (s : Finset ι) (M i : ℕ) (v : ℕ → ℝ)
    (g : ι → ℝ) (cols : ι → ℕ → ℝ) :
    hhApply M i v (fun r => ∑ u ∈ s, g u * cols u r)
      = fun r => ∑ u ∈ s, g u * hhApply M i v (cols u) r := by
  funext r
  unfold hhApply
  by_cases hr : i ≤ r
  · simp only [hr, if_true]
    have hdot : dotn (M - i) v (fun t => ∑ u ∈ s, g u * cols u (t + i))
        = ∑ u ∈ s, g u * dotn (M - i) v (fun t => cols u (t + i)) :=
      dotn_finsum_right s (M - i) v g (fun u t => cols u (t + i))
    rw [hdot]
    have h1 : (∑ u ∈ s, g u * (cols u r -
          2 * dotn (M - i) v (fun t => cols u (t + i)) / dotn (M - i) v v *
            v (r - i)))
        = (∑ u ∈ s, g u * cols u r) -
          (∑ u ∈ s, 2 / dotn (M - i) v v * v (r - i) *
            (g u * dotn (M - i) v (fun t => cols u (t + i)))) := by
      rw [← Finset.sum_sub_distrib]
      refine Finset.sum_congr rfl fun u _ => by ring
    rw [h1, ← Finset.mul_sum]
    ring
  · simp only [hr, if_false]

theorem hhApply_involutive (M i : ℕ) (v col : ℕ → ℝ)
    (hd : dotn (M - i) v v ≠ 0) :
    hhApply M i v (hhApply M i v col) = col := by
  have hshift : (fun t => hhApply M i v col (t + i))
      = fun t => col (t + i) -
          2 * dotn (M - i) v (fun u => col (u + i)) / dotn (M - i) v v *
            v t := by
    funext t
    unfold hhApply
    rw [if_pos (Nat.le_add_left i t), Nat.add_sub_cancel]
  have hdot2 : dotn (M - i) v (fun t => hhApply M i v col (t + i))
      = - dotn (M - i) v (fun u => col (u + i)) := by
    rw [hshift, dotn_sub_smul_right, div_mul_cancel₀ _ hd]
    ring
  funext r
  by_cases hr : i ≤ r
  · have houter : hhApply M i v (hhApply M i v col) r
        = hhApply M i v col r -
          2 * dotn (M - i) v (fun t => hhApply M i v col (t + i)) /
            dotn (M - i) v v * v (r - i) := by
      unfold hhApply
      rw [if_pos hr]
    rw [houter, hdot2]
    have hinner : hhApply M i v col r
        = col r -
          2 * dotn (M - i) v (fun u => col (u + i)) / dotn (M - i) v v *
            v (r - i) := by
      unfold hhApply
      rw [if_pos hr]
    rw [hinner]
    field_simp
  · have houter : hhApply M i v (hhApply M i v col) r
        = hhApply M i v col r := by
      unfold hhApply
      rw [if_neg hr]
    have hinner : hhApply M i v col r = col r := by
      unfold hhApply
      rw [if_neg hr]
    rw [houter, hinner]

theorem hhApply_fixes_of_zero (M i : ℕ) (v col : ℕ → ℝ)
    (h : ∀ t, t < M - i → col (t + i) = 0) :
    hhApply M i v col = col := by
  funext r
  unfold hhApply
  by_cases hr : i ≤ r
  · simp only [hr, if_true]
    rw [dotn_zero_right (M - i) v (fun t => col (t + i)) h]
    ring
  · simp only [hr, if_false]

theorem qApply_finsum {ι : Type} (s : Finset ι) (M i : ℕ) (v : ℕ → ℝ)
    (g : ι → ℝ) (cols : ι → ℕ → ℝ) :
    qApply M i v (fun r => ∑ u ∈ s, g u * cols u r)
      = fun r => ∑ u ∈ s, g u * qApply M i v (cols u) r := by
  unfold qApply
  by_cases hs : |dotn (M - i) v v| ≤ atol
  · simp only [hs, if_true]
  · simp only [hs, if_false]
    exact hhApply_finsum s M i v g cols

theorem qApply_congr_ltM (M i : ℕ) (v col₁ col₂ : ℕ → ℝ)
    (h : ∀ r, r < M → col₁ r = col₂ r) :
    ∀ r, r < M → qApply M i v col₁ r = qApply M i v col₂ r := by
  intro r hrM
  have hdot : dotn (M - i) v (fun t => col₁ (t + i))
      = dotn (M - i) v (fun t => col₂ (t + i)) := by
    unfold dotn
    refine Finset.sum_congr rfl fun t ht => ?_
    show v t * col₁ (t + i) = v t * col₂ (t + i)
    rw [h (t + i) (by have := Finset.mem_range.mp ht; omega)]
  unfold qApply hhApply
  by_cases hs : |dotn (M - i) v v| ≤ atol
  · simp only [hs, if_true]
    exact h r hrM
  · simp only [hs, if_false]
    rw [hdot, h r hrM]

theorem qColSteps_finsum {ι : Type} (s : Finset ι) (M K : ℕ)
    (A0 : ℕ → ℕ → ℝ) (g : ι → ℝ) (cols : ι → ℕ → ℝ) :
    ∀ m, qColSteps M K A0 (fun r => ∑ u ∈ s, g u * cols u r) m
      = fun r => ∑ u ∈ s, g u * qColSteps M K A0 (cols u) m r := by
  intro m
  induction m with
  | zero => rfl
  | succ m ih =>
    show qApply M (K - (m + 1)) (vsAt M K A0 (K - (m + 1)))
        (qColSteps M K A0 (fun r => ∑ u ∈ s, g u * cols u r) m) = _
    rw [ih]
    exact qApply_finsum s M (K - (m + 1)) (vsAt M K A0 (K - (m + 1))) g
      (fun u => qColSteps M K A0 (cols u) m)

theorem qColSteps_congr_ltM (M K : ℕ) (A0 : ℕ → ℕ → ℝ)
    (col₁ col₂ : ℕ → ℝ) (h : ∀ r, r < M → col₁ r = col₂ r) :
    ∀ m r, r < M → qColSteps M K A0 col₁ m r = qColSteps M K A0 col₂ m r := by
  intro m
  induction m with
  | zero => exact h
  | succ m ih =>
    exact qApply_congr_ltM M (K - (m + 1)) (vsAt M K A0 (K - (m + 1)))
      (qColSteps M K A0 col₁ m) (qColSteps M K A0 col₂ m) ih

/-! ## Householder reconstruction Q R = A (no step skipped) -/

/-- The isclose test of step i fires (the stored reflection vector has
nearly zero self-dot-product). -/
def skippedAt (M K : ℕ) (A0 : ℕ → ℕ → ℝ) (i : ℕ) : Prop :=
  |dotn (M - i) (vsAt M K A0 i) (vsAt M K A0 i)| ≤ atol

theorem vsAt_dvv_ne_zero (M K : ℕ) (A0 : ℕ → ℕ → ℝ) (i : ℕ)
    (hns : ¬ skippedAt M K A0 i) :
    dotn (M - i) (vsAt M K A0 i) (vsAt M K A0 i) ≠ 0 := by
  intro h0
  apply hns
  unfold skippedAt
  rw [h0, abs_zero]
  unfold atol
  norm_num

/-- For a column i <= j < K, the elimination step i acts on column j
exactly as the guarded reflection application qApply with the stored
vector of step i. -/
theorem elim_col_as_qApply (M K : ℕ) (A0 : ℕ → ℕ → ℝ) (i j : ℕ)
    (hij : i ≤ j) (hjK : j < K) :
    (fun r => elimUpTo M K A0 (i + 1) r j)
      = qApply M i (vsAt M K A0 i) (fun r => elimUpTo M K A0 i r j) := by
  funext r
  show hhStep M K i (elimUpTo M K A0 i) r j = _
  unfold hhStep qApply vsAt
  by_cases hs : |dotn (M - i) (reflVec M (elimUpTo M K A0 i) i)
      (reflVec M (elimUpTo M K A0 i) i)| ≤ atol
  · simp only [hs, if_true]
  · simp only [hs, if_false]
    rw [if_pos ⟨hij, hjK⟩]

/-- With no skipped step, the final working matrix has exact zeros below
the diagonal of every eliminated column. -/
theorem elim_zero_below_of_noskip (M K : ℕ) (A0 : ℕ → ℕ → ℝ) (c : ℕ)
    (hcK : c < K) (hcM : c < M) (hns : ¬ skippedAt M K A0 c) :
    ∀ r, c < r → elimUpTo M K A0 (c + 1) r c = 0 := by
  intro r hr
  have hns' : ¬ |dotn (M - c) (reflVec M (elimUpTo M K A0 c) c)
      (reflVec M (elimUpTo M K A0 c) c)| ≤ atol := hns
  exact hhStep_annihilates M K c (elimUpTo M K A0 c) hcM hcK hns' r hr

/-- Reflections with index above c fix the final (annihilated) column c. -/
theorem qColSteps_fixes_eliminated (M K : ℕ) (A0 : ℕ → ℕ → ℝ) (c : ℕ)
    (hcK : c < K) (hcM : c < M) (hns : ¬ skippedAt M K A0 c) :
    ∀ m, m ≤ K - (c + 1) →
      qColSteps M K A0 (fun r => elimUpTo M K A0 (c + 1) r c) m
        = fun r => elimUpTo M K A0 (c + 1) r c := by
  intro m
  induction m with
  | zero => intro _; rfl
  | succ m ih =>
    intro hm
    show qApply M (K - (m + 1)) (vsAt M K A0 (K - (m + 1)))
        (qColSteps M K A0 (fun r => elimUpTo M K A0 (c + 1) r c) m) = _
    rw [ih (by omega)]
    have hidx : c < K - (m + 1) := by omega
    unfold qApply
    by_cases hs : |dotn (M - (K - (m + 1))) (vsAt M K A0 (K - (m + 1)))
        (vsAt M K A0 (K - (m + 1)))| ≤ atol
    · simp only [hs, if_true]
    · simp only [hs, if_false]
      refine hhApply_fixes_of_zero M (K - (m + 1)) _ _ fun t ht => ?_
      exact elim_zero_below_of_noskip M K A0 c hcK hcM hns (t + (K - (m + 1)))
        (by omega)

/-- Peeling the remaining reflections undoes the elimination of column c
step by step, all the way back to the original column. -/
theorem qColSteps_cancels (M K : ℕ) (A0 : ℕ → ℕ → ℝ) (c : ℕ)
    (hcK : c < K) (hKM : K ≤ M)
    (hnoskip : ∀ i, i < K → ¬ skippedAt M K A0 i) :
    ∀ s, K - (c + 1) ≤ s → s ≤ K →
      qColSteps M K A0 (fun r => elimUpTo M K A0 (c + 1) r c) s
        = fun r => elimUpTo M K A0 (K - s) r c := by
  intro s
  induction s with
  | zero =>
    intro h1 _
    have hc1 : K - (c + 1) = 0 := by omega
    have hK : K - 0 = c + 1 := by omega
    rw [hK]
    rfl
  | succ s ih =>
    intro h1 h2
    rcases Nat.lt_or_ge (K - (c + 1)) (s + 1) with hlt | hge
    · have hs1 : K - (c + 1) ≤ s := by omega
      have hs2 : s ≤ K := by omega
      show qApply M (K - (s + 1)) (vsAt M K A0 (K - (s + 1)))
          (qColSteps M K A0 (fun r => elimUpTo M K A0 (c + 1) r c) s) = _
      rw [ih hs1 hs2]
      set i := K - (s + 1) with hidef
      have hiK : i < K := by omega
      have hic : i ≤ c := by omega
      have hKs : K - s = i + 1 := by omega
      rw [hKs]
      rw [elim_col_as_qApply M K A0 i c hic hcK]
      have hns := hnoskip i hiK
      have hdne := vsAt_dvv_ne_zero M K A0 i hns
      unfold qApply
      have hs' : ¬ |dotn (M - i) (vsAt M K A0 i) (vsAt M K A0 i)| ≤ atol :=
        hns
      simp only [hs', if_false]
      exact hhApply_involutive M i (vsAt M K A0 i)
        (fun r => elimUpTo M K A0 i r c) hdne
    · have hse : s + 1 = K - (c + 1) := by omega
      have hfix := qColSteps_fixes_eliminated M K A0 c hcK (by omega)
        (hnoskip c hcK) (s + 1) (by omega)
      rw [hfix]
      have : K - (s + 1) = c + 1 := by omega
      rw [this]

/-- Exact reconstruction for QR.householder: when N <= M and no step is
skipped by the isclose test, the product of the returned Q and R equals
the original matrix on every tracked entry. -/
theorem hh_recon (M N : ℕ) (A0 : ℕ → ℕ → ℝ) (hNM : N ≤ M)
    (hnoskip : ∀ i, i < min M N → ¬ skippedAt M (min M N) A0 i) :
    ∀ r c, r < M → c < N →
      dotn M (fun t => hhQ M (min M N) A0 r t) (fun t => hhR M N A0 t c)
        = A0 r c := by
  intro r c hrM hcN
  have hK : min M N = N := min_eq_right hNM
  have hcK : c < min M N := by omega
  have hfrozen : ∀ t, hhR M N A0 t c = elimUpTo M (min M N) A0 (c + 1) t c :=
    fun t => elimUpTo_col_frozen M (min M N) A0 c (min M N) hcK t
  -- the product as one application of the full reflection sequence
  have hlin : ∀ r', dotn M (fun t => hhQ M (min M N) A0 r' t)
      (fun t => hhR M N A0 t c)
      = qColSteps M (min M N) A0
          (fun r'' => ∑ t ∈ Finset.range M, hhR M N A0 t c * basis_vec t r'')
          (min M N) r' := by
    intro r'
    have hsum := qColSteps_finsum (Finset.range M) M (min M N) A0
      (fun t => hhR M N A0 t c) (fun t => basis_vec t) (min M N)
    rw [hsum]
    unfold dotn
    refine Finset.sum_congr rfl fun t _ => ?_
    rw [mul_comm]
    rfl
  rw [hlin r]
  -- replace the truncated column by the final working column below M
  have hagree : ∀ r'', r'' < M →
      (∑ t ∈ Finset.range M, hhR M N A0 t c * basis_vec t r'')
        = elimUpTo M (min M N) A0 (c + 1) r'' c := by
    intro r'' hr''
    unfold basis_vec
    rw [Finset.sum_congr rfl
      (fun t _ => by rw [mul_ite, mul_one, mul_zero])]
    rw [Finset.sum_ite_eq (Finset.range M) r'' (fun t => hhR M N A0 t c)]
    rw [if_pos (Finset.mem_range.mpr hr'')]
    exact hfrozen r''
  have hcongr := qColSteps_congr_ltM M (min M N) A0
    (fun r'' => ∑ t ∈ Finset.range M, hhR M N A0 t c * basis_vec t r'')
    (fun r'' => elimUpTo M (min M N) A0 (c + 1) r'' c) hagree (min M N) r hrM
  rw [hcongr]
  have hcancel := qColSteps_cancels M (min M N) A0 c hcK
    (min_le_left M N) hnoskip (min M N) (by omega) (le_refl _)
  rw [hcancel]
  have : min M N - min M N = 0 := by omega
  rw [this]
  rfl

/-! ## More dot-product algebra -/

theorem dotn_comm (n : ℕ) (v w : ℕ → ℝ) : dotn n v w = dotn n w v := by
  unfold dotn
  exact Finset.sum_congr rfl fun t _ => mul_comm _ _

theorem dotn_add_right (n : ℕ) (v w z : ℕ → ℝ) :
    dotn n v (fun t => w t + z t) = dotn n v w + dotn n v z := by
  unfold dotn
  rw [← Finset.sum_add_distrib]
  exact Finset.sum_congr rfl fun t _ => by ring

theorem dotn_sub_right (n : ℕ) (v w z : ℕ → ℝ) :
    dotn n v (fun t => w t - z t) = dotn n v w - dotn n v z := by
  unfold dotn
  rw [← Finset.sum_sub_distrib]
  exact Finset.sum_congr rfl fun t _ => by ring

theorem dotn_smul_right (n : ℕ) (v w : ℕ → ℝ) (mu : ℝ) :
    dotn n v (fun t => mu * w t) = mu * dotn n v w := by
  unfold dotn
  rw [Finset.mul_sum]
  exact Finset.sum_congr rfl fun t _ => by ring

theorem dotn_div_right (n : ℕ) (v w : ℕ → ℝ) (c : ℝ) :
    dotn n v (fun t => w t / c) = dotn n v w / c := by
  unfold dotn
  rw [Finset.sum_div]
  exact Finset.sum_congr rfl fun t _ => by ring

theorem dotn_div_left (n : ℕ) (v w : ℕ → ℝ) (c : ℝ) :
    dotn n (fun t => v t / c) w = dotn n v w / c := by
  rw [dotn_comm, dotn_div_right, dotn_comm]

theorem dotn_self_zero_coords (n : ℕ) (v : ℕ → ℝ)
    (h : dotn n v v = 0) : ∀ t, t < n → v t = 0 := by
  intro t ht
  have hall := (Finset.sum_eq_zero_iff_of_nonneg
    (fun u _ => mul_self_nonneg (v u))).mp h t (Finset.mem_range.mpr ht)
  exact mul_self_eq_zero.mp hall

/-! ## Finite linear combinations of a family of columns -/

/-- w is a linear combination of the first i members of the column family
fam (pointwise at every index). -/
def comboOf (i : ℕ) (fam : ℕ → ℕ → ℝ) (w : ℕ → ℝ) : Prop :=
  ∃ coef : ℕ → ℝ, ∀ r, w r = ∑ l ∈ Finset.range i, coef l * fam l r

theorem comboOf_zero (i : ℕ) (fam : ℕ → ℕ → ℝ) :
    comboOf i fam (fun _ => 0) :=
  ⟨fun _ => 0, fun r => by simp⟩

theorem comboOf_mono (i i' : ℕ) (fam : ℕ → ℕ → ℝ) (w : ℕ → ℝ)
    (hii : i ≤ i') (h : comboOf i fam w) : comboOf i' fam w := by
  obtain ⟨coef, hc⟩ := h
  refine ⟨fun l => if l < i then coef l else 0, fun r => ?_⟩
  show w r = ∑ l ∈ Finset.range i', (if l < i then coef l else 0) * fam l r
  have h1 : ∑ l ∈ Finset.range i', (if l < i then coef l else 0) * fam l r
      = ∑ l ∈ Finset.range i, (if l < i then coef l else 0) * fam l r := by
    symm
    apply Finset.sum_subset (Finset.range_subset.mpr hii)
    intro x _ hx
    have hnx : ¬ x < i := fun hlt => hx (Finset.mem_range.mpr hlt)
    simp [hnx]
  have h2 : ∑ l ∈ Finset.range i, (if l < i then coef l else 0) * fam l r
      = ∑ l ∈ Finset.range i, coef l * fam l r :=
    Finset.sum_congr rfl fun l hl => by simp [Finset.mem_range.mp hl]
  rw [h1, h2]
  exact hc r

theorem comboOf_mem (i l : ℕ) (fam : ℕ → ℕ → ℝ) (hl : l < i) :
    comboOf i fam (fam l) := by
  refine ⟨fun p => if p = l then 1 else 0, fun r => ?_⟩
  rw [Finset.sum_congr rfl
    (fun p _ => by rw [ite_mul, one_mul, zero_mul] :
      ∀ p ∈ Finset.range i, (if p = l then (1:ℝ) else 0) * fam p r
        = if p = l then fam p r else 0)]
  rw [Finset.sum_ite_eq' (Finset.range i) l (fun p => fam p r)]
  rw [if_pos (Finset.mem_range.mpr hl)]

theorem comboOf_add (i : ℕ) (fam : ℕ → ℕ → ℝ) (w z : ℕ → ℝ)
    (hw : comboOf i fam w) (hz : comboOf i fam z) :
    comboOf i fam (fun r => w r + z r) := by
  obtain ⟨cw, hw⟩ := hw
  obtain ⟨cz, hz⟩ := hz
  refine ⟨fun l => cw l + cz l, fun r => ?_⟩
  show w r + z r = ∑ l ∈ Finset.range i, (cw l + cz l) * fam l r
  rw [hw r, hz r, ← Finset.sum_add_distrib]
  exact Finset.sum_congr rfl fun l _ => by ring

theorem comboOf_sub (i : ℕ) (fam : ℕ → ℕ → ℝ) (w z : ℕ → ℝ)
    (hw : comboOf i fam w) (hz : comboOf i fam z) :
    comboOf i fam (fun r => w r - z r) := by
  obtain ⟨cw, hw⟩ := hw
  obtain ⟨cz, hz⟩ := hz
  refine ⟨fun l => cw l - cz l, fun r => ?_⟩
  show w r - z r = ∑ l ∈ Finset.range i, (cw l - cz l) * fam l r
  rw [hw r, hz r, ← Finset.sum_sub_distrib]
  exact Finset.sum_congr rfl fun l _ => by ring

theorem comboOf_smul (i : ℕ) (fam : ℕ → ℕ → ℝ) (w : ℕ → ℝ) (mu : ℝ)
    (hw : comboOf i fam w) : comboOf i fam (fun r => mu * w r) := by
  obtain ⟨cw, hw⟩ := hw
  refine ⟨fun l => mu * cw l, fun r => ?_⟩
  show mu * w r = ∑ l ∈ Finset.range i, (mu * cw l) * fam l r
  rw [hw r, Finset.mul_sum]
  exact Finset.sum_congr rfl fun l _ => by ring

theorem comboOf_div (i : ℕ) (fam : ℕ → ℕ → ℝ) (w : ℕ → ℝ) (c : ℝ)
    (hw : comboOf i fam w) : comboOf i fam (fun r => w r / c) := by
  obtain ⟨cw, hw⟩ := hw
  refine ⟨fun l => cw l / c, fun r => ?_⟩
  show w r / c = ∑ l ∈ Finset.range i, (cw l / c) * fam l r
  rw [hw r, Finset.sum_div]
  exact Finset.sum_congr rfl fun l _ => by ring

/-- Substituting combinations: a combination of columns that are themselves
combinations of a second family is a combination of the second family. -/
theorem comboOf_trans (i m : ℕ) (fam fam' : ℕ → ℕ → ℝ) (w : ℕ → ℝ)
    (hw : comboOf i fam w) (hfam : ∀ l, l < i → comboOf m fam' (fam l)) :
    comboOf m fam' w := by
  obtain ⟨coef, hc⟩ := hw
  choose d hd using fun (l : ℕ) (hl : l < i) => hfam l hl
  refine ⟨fun p => ∑ l ∈ Finset.attach (Finset.range i),
    coef l.1 * d l.1 (Finset.mem_range.mp l.2) p, fun r => ?_⟩
  rw [hc r]
  rw [← Finset.sum_attach (Finset.range i) (fun l => coef l * fam l r)]
  calc ∑ l ∈ Finset.attach (Finset.range i), coef l.1 * fam l.1 r
      = ∑ l ∈ Finset.attach (Finset.range i), ∑ p ∈ Finset.range m,
          coef l.1 * (d l.1 (Finset.mem_range.mp l.2) p * fam' p r) := by
        refine Finset.sum_congr rfl fun l _ => ?_
        rw [hd l.1 (Finset.mem_range.mp l.2) r, Finset.mul_sum]
    _ = ∑ p ∈ Finset.range m, ∑ l ∈ Finset.attach (Finset.range i),
          coef l.1 * (d l.1 (Finset.mem_range.mp l.2) p * fam' p r) :=
        Finset.sum_comm
    _ = ∑ p ∈ Finset.range m, (∑ l ∈ Finset.attach (Finset.range i),
          coef l.1 * d l.1 (Finset.mem_range.mp l.2) p) * fam' p r := by
        refine Finset.sum_congr rfl fun p _ => ?_
        rw [Finset.sum_mul]
        exact Finset.sum_congr rfl fun l _ => by ring

/-- The columns of the family indexed below i, taken as a sum with scalar
weights, are a combination (used to fold sums of q-columns). -/
theorem comboOf_weighted_sum (i m : ℕ) (fam' : ℕ → ℕ → ℝ) (g : ℕ → ℝ)
    (q : ℕ → ℕ → ℝ) (hq : ∀ l, l < i → comboOf m fam' (q l)) :
    comboOf m fam' (fun r => ∑ l ∈ Finset.range i, g l * q l r) :=
  comboOf_trans i m q fam' _ ⟨g, fun _ => rfl⟩ hq

/-! ## Linear independence of the tracked columns -/

/-- The j-th column of A0 as a vector. -/
def acolF (A0 : ℕ → ℕ → ℝ) (j : ℕ) : ℕ → ℝ := fun r => A0 r j

/-- Full column rank of the tracked M x N block: the only combination of
the N columns vanishing on all tracked rows is the trivial one. -/
def LinIndepCols (M N : ℕ) (A0 : ℕ → ℕ → ℝ) : Prop :=
  ∀ coef : ℕ → ℝ,
    (∀ r, r < M → ∑ j ∈ Finset.range N, coef j * A0 r j = 0) →
    ∀ j, j < N → coef j = 0

/-- A column of a full-column-rank block is not a combination of the
previous columns on the tracked rows. -/
theorem not_combo_of_linIndep (M N : ℕ) (A0 : ℕ → ℕ → ℝ)
    (hli : LinIndepCols M N A0) (i : ℕ) (hiN : i < N) (w : ℕ → ℝ)
    (hw : comboOf i (acolF A0) w) (heq : ∀ r, r < M → A0 r i = w r) :
    False := by
  obtain ⟨coef, hc⟩ := hw
  have hz : ∀ r, r < M →
      ∑ j ∈ Finset.range N, (fun j => if j = i then (-1 : ℝ)
        else if j < i then coef j else 0) j * A0 r j = 0 := by
    intro r hr
    have hsplit : ∀ j ∈ Finset.range N,
        (if j = i then (-1 : ℝ) else if j < i then coef j else 0) * A0 r j
          = (if j = i then -A0 r i else 0) +
            (if j < i then coef j * A0 r j else 0) := by
      intro j _
      by_cases hji : j = i
      · subst hji
        simp [lt_irrefl]
      · by_cases hjlt : j < i
        · simp [hji, hjlt]
        · simp [hji, hjlt]
    rw [Finset.sum_congr rfl hsplit, Finset.sum_add_distrib]
    rw [Finset.sum_ite_eq' (Finset.range N) i (fun _ => -A0 r i)]
    rw [if_pos (Finset.mem_range.mpr hiN)]
    have hrestrict : ∑ j ∈ Finset.range N,
        (if j < i then coef j * A0 r j else 0)
          = ∑ j ∈ Finset.range i, coef j * A0 r j := by
      rw [← Finset.sum_subset (Finset.range_subset.mpr (le_of_lt hiN))
        (fun x _ hx => by
          have : ¬ x < i := fun hlt => hx (Finset.mem_range.mpr hlt)
          simp [this])]
      exact Finset.sum_congr rfl fun x hx => by
        simp [Finset.mem_range.mp hx]
    rw [hrestrict]
    have := hc r
    unfold acolF at this
    rw [← this, ← heq r hr]
    ring
  have := hli _ hz i hiN
  simp at this

/-! ## Classical Gram-Schmidt: structure lemmas -/

/-- The finalized (already normalized) column j of classical
Gram-Schmidt. -/
def qcolGS (M : ℕ) (A0 : ℕ → ℕ → ℝ) (j : ℕ) : ℕ → ℝ :=
  fun r => gsUpTo M A0 (j + 1) r j

/-- The residual of column i before normalization. -/
def ucolGS (M : ℕ) (A0 : ℕ → ℕ → ℝ) (i : ℕ) : ℕ → ℝ :=
  gsInner M (gsUpTo M A0 i) i i

theorem gsStep_other (M : ℕ) (B : ℕ → ℕ → ℝ) (i r c : ℕ) (h : c ≠ i) :
    gsStep M B i r c = B r c := by
  unfold gsStep
  rw [if_neg h]

theorem gsUpTo_col_frozen (M : ℕ) (A0 : ℕ → ℕ → ℝ) (c : ℕ) :
    ∀ m, c + 1 ≤ m → ∀ r, gsUpTo M A0 m r c = qcolGS M A0 c r := by
  intro m
  induction m with
  | zero => intro h; exact absurd h (by omega)
  | succ m ih =>
    intro h r
    rcases Nat.lt_or_ge c m with hlt | hge
    · show gsStep M (gsUpTo M A0 m) m r c = _
      rw [gsStep_other M _ m r c (by omega)]
      exact ih (by omega) r
    · have : m = c := by omega
      subst this
      rfl

theorem gsUpTo_col_orig (M : ℕ) (A0 : ℕ → ℕ → ℝ) (c : ℕ) :
    ∀ m, m ≤ c → ∀ r, gsUpTo M A0 m r c = A0 r c := by
  intro m
  induction m with
  | zero => intro _ r; rfl
  | succ m ih =>
    intro h r
    show gsStep M (gsUpTo M A0 m) m r c = _
    rw [gsStep_other M _ m r c (by omega)]
    exact ih (by omega) r

theorem qcolGS_eq_normalize (M : ℕ) (A0 : ℕ → ℕ → ℝ) (i : ℕ) :
    qcolGS M A0 i = normalize M (ucolGS M A0 i) := by
  funext r
  show gsStep M (gsUpTo M A0 i) i r i = _
  unfold gsStep
  rw [if_pos rfl]
  rfl

theorem gsQ_eq_qcolGS (M N : ℕ) (A0 : ℕ → ℕ → ℝ) (i : ℕ) (hiN : i < N) :
    ∀ r, gsQ M N A0 r i = qcolGS M A0 i r := by
  intro r
  exact gsUpTo_col_frozen M A0 i N (by omega) r

theorem gsUpTo_prev_cols (M : ℕ) (A0 : ℕ → ℕ → ℝ) (i j : ℕ) (hj : j < i) :
    (fun r => gsUpTo M A0 i r j) = qcolGS M A0 j :=
  funext fun r => gsUpTo_col_frozen M A0 j i (by omega) r

theorem gsInner_succ_eq (M : ℕ) (A0 : ℕ → ℕ → ℝ) (i j : ℕ) (hj : j < i) :
    gsInner M (gsUpTo M A0 i) i (j + 1)
      = fun r => gsInner M (gsUpTo M A0 i) i j r -
          dotn M (gsInner M (gsUpTo M A0 i) i j) (qcolGS M A0 j) /
            dotn M (qcolGS M A0 j) (qcolGS M A0 j) * qcolGS M A0 j r := by
  funext r
  show gsInner M (gsUpTo M A0 i) i j r -
      projection M (gsInner M (gsUpTo M A0 i) i j)
        (fun r' => gsUpTo M A0 i r' j) r = _
  rw [gsUpTo_prev_cols M A0 i j hj]
  rfl

/-- After j inner subtractions, the partially reduced column i is
orthogonal to each of the first j finalized columns, provided those are
orthonormal. -/
theorem gsInner_orth (M : ℕ) (A0 : ℕ → ℕ → ℝ) (i : ℕ)
    (honb : ∀ j l, j < i → l < i →
      dotn M (qcolGS M A0 j) (qcolGS M A0 l) = if j = l then 1 else 0) :
    ∀ j, j ≤ i → ∀ l, l < j →
      dotn M (qcolGS M A0 l) (gsInner M (gsUpTo M A0 i) i j) = 0 := by
  intro j
  induction j with
  | zero => intro _ l hl; omega
  | succ j ih =>
    intro hji l hl
    rw [gsInner_succ_eq M A0 i j (by omega)]
    rw [dotn_sub_right, dotn_smul_right]
    rcases Nat.lt_or_ge l j with hlj | hgej
    · rw [ih (by omega) l hlj]
      rw [honb l j (by omega) (by omega), if_neg (by omega)]
      ring
    · have hlj : l = j := by omega
      subst hlj
      rw [honb l l (by omega) (by omega), if_pos rfl]
      rw [dotn_comm M (gsInner M (gsUpTo M A0 i) i l) (qcolGS M A0 l)]
      simp

/-- The partially reduced column i is the original column minus a
combination of the finalized columns already subtracted. -/
theorem gsInner_rep (M : ℕ) (A0 : ℕ → ℕ → ℝ) (i : ℕ) :
    ∀ j, j ≤ i →
      ∃ w, comboOf j (qcolGS M A0) w ∧
        ∀ r, gsInner M (gsUpTo M A0 i) i j r = A0 r i - w r := by
  intro j
  induction j with
  | zero =>
    intro _
    refine ⟨fun _ => 0, comboOf_zero _ _, fun r => ?_⟩
    show gsUpTo M A0 i r i = A0 r i - 0
    rw [gsUpTo_col_orig M A0 i i (le_refl i) r]
    ring
  | succ j ih =>
    intro hj
    obtain ⟨w, hcw, hw⟩ := ih (by omega)
    refine ⟨fun r => w r +
      dotn M (gsInner M (gsUpTo M A0 i) i j) (qcolGS M A0 j) /
        dotn M (qcolGS M A0 j) (qcolGS M A0 j) * qcolGS M A0 j r, ?_, ?_⟩
    · exact comboOf_add (j + 1) _ _ _
        (comboOf_mono j (j + 1) _ _ (by omega) hcw)
        (comboOf_smul (j + 1) _ _ _ (comboOf_mem (j + 1) j _ (by omega)))
    · intro r
      rw [gsInner_succ_eq M A0 i j (by omega)]
      show gsInner M (gsUpTo M A0 i) i j r - _ = _
      rw [hw r]
      ring

theorem ucolGS_rep (M : ℕ) (A0 : ℕ → ℕ → ℝ) (i : ℕ) :
    ∃ w, comboOf i (qcolGS M A0) w ∧
      ∀ r, ucolGS M A0 i r = A0 r i - w r :=
  gsInner_rep M A0 i i (le_refl i)

/-- Each finalized column is a combination of the original columns up to
its own index. -/
theorem qcolGS_comboA (M : ℕ) (A0 : ℕ → ℕ → ℝ) :
    ∀ i, comboOf (i + 1) (acolF A0) (qcolGS M A0 i) := by
  intro i
  induction i using Nat.strong_induction_on with
  | _ i ih =>
    obtain ⟨w, hcw, hw⟩ := ucolGS_rep M A0 i
    rw [qcolGS_eq_normalize M A0 i]
    show comboOf (i + 1) (acolF A0)
      (fun r => ucolGS M A0 i r / l2_norm M (ucolGS M A0 i))
    apply comboOf_div
    have hu : ucolGS M A0 i = fun r => A0 r i - w r := funext hw
    rw [hu]
    apply comboOf_sub
    · exact comboOf_mem (i + 1) i (acolF A0) (by omega)
    · exact comboOf_trans i (i + 1) (qcolGS M A0) (acolF A0) w hcw
        (fun l hl => comboOf_mono (l + 1) (i + 1) _ _ (by omega)
          (ih l (by omega)))

/-- Under full column rank, the residual of each of the first N columns
has nonzero self-dot-product. -/
theorem ucolGS_dot_ne (M N : ℕ) (A0 : ℕ → ℕ → ℝ)
    (hli : LinIndepCols M N A0) (i : ℕ) (hiN : i < N) :
    dotn M (ucolGS M A0 i) (ucolGS M A0 i) ≠ 0 := by
  intro h0
  obtain ⟨w, hcw, hw⟩ := ucolGS_rep M A0 i
  have hwA : comboOf i (acolF A0) w :=
    comboOf_trans i i (qcolGS M A0) (acolF A0) w hcw
      (fun l hl => comboOf_mono (l + 1) i _ _ (by omega)
        (qcolGS_comboA M A0 l))
  apply not_combo_of_linIndep M N A0 hli i hiN w hwA
  intro r hr
  have h1 := dotn_self_zero_coords M (ucolGS M A0 i) h0 r hr
  have h2 := hw r
  linarith

/-- Orthonormality of the first N finalized Gram-Schmidt columns under
full column rank. -/
theorem gs_onb (M N : ℕ) (A0 : ℕ → ℕ → ℝ) (hli : LinIndepCols M N A0) :
    ∀ i, i ≤ N → ∀ j l, j < i → l < i →
      dotn M (qcolGS M A0 j) (qcolGS M A0 l) = if j = l then 1 else 0 := by
  intro i
  induction i with
  | zero => intro _ j l hj hl; omega
  | succ i ih =>
    intro hiN j l hj hl
    have hONBi := ih (by omega)
    have hu_ne : dotn M (ucolGS M A0 i) (ucolGS M A0 i) ≠ 0 :=
      ucolGS_dot_ne M N A0 hli i (by omega)
    have hcc : l2_norm M (ucolGS M A0 i) * l2_norm M (ucolGS M A0 i)
        = dotn M (ucolGS M A0 i) (ucolGS M A0 i) :=
      l2_norm_mul_self M (ucolGS M A0 i)
    have hc_ne : l2_norm M (ucolGS M A0 i) ≠ 0 := by
      intro h0
      apply hu_ne
      rw [← hcc, h0]
      ring
    have hqu : ∀ z : ℕ → ℝ, dotn M (qcolGS M A0 i) z
        = dotn M (ucolGS M A0 i) z / l2_norm M (ucolGS M A0 i) := by
      intro z
      rw [qcolGS_eq_normalize M A0 i]
      show dotn M
        (fun r => ucolGS M A0 i r / l2_norm M (ucolGS M A0 i)) z = _
      rw [dotn_div_left]
    have horth : ∀ l', l' < i →
        dotn M (qcolGS M A0 l') (ucolGS M A0 i) = 0 := fun l' hl' =>
      gsInner_orth M A0 i hONBi i (le_refl i) l' hl'
    by_cases hji : j = i
    · subst hji
      by_cases hli' : l = j
      · subst hli'
        rw [if_pos rfl]
        rw [hqu (qcolGS M A0 l), qcolGS_eq_normalize M A0 l]
        have hdr : dotn M (ucolGS M A0 l) (normalize M (ucolGS M A0 l))
            = dotn M (ucolGS M A0 l) (ucolGS M A0 l) /
              l2_norm M (ucolGS M A0 l) := by
          show dotn M (ucolGS M A0 l)
            (fun r => ucolGS M A0 l r / l2_norm M (ucolGS M A0 l)) = _
          exact dotn_div_right M _ _ _
        rw [hdr, div_div, hcc, div_self hu_ne]
      · rw [if_neg (fun h => hli' h.symm)]
        have hlt : l < j := by omega
        rw [hqu (qcolGS M A0 l)]
        rw [dotn_comm M (ucolGS M A0 j) (qcolGS M A0 l)]
        rw [horth l hlt, zero_div]
    · by_cases hli' : l = i
      · subst hli'
        rw [if_neg hji]
        have hlt : j < l := by omega
        rw [dotn_comm M (qcolGS M A0 j) (qcolGS M A0 l)]
        rw [hqu (qcolGS M A0 j)]
        rw [dotn_comm M (ucolGS M A0 l) (qcolGS M A0 j)]
        rw [horth j hlt, zero_div]
      · exact hONBi j l (by omega) (by omega)

/-- The recovered R of classical Gram-Schmidt has nonnegative diagonal
entries under full column rank (each equals the residual's norm). -/
theorem gs_diag_nonneg (M N : ℕ) (A0 : ℕ → ℕ → ℝ)
    (hli : LinIndepCols M N A0) (i : ℕ) (hiN : i < N) :
    0 ≤ gsR M N A0 i i := by
  obtain ⟨w, hcw, hw⟩ := ucolGS_rep M A0 i
  unfold gsR
  have hQ : (fun r => gsQ M N A0 r i) = qcolGS M A0 i :=
    funext (gsQ_eq_qcolGS M N A0 i hiN)
  rw [hQ]
  have hA : (fun r => A0 r i) = fun r => ucolGS M A0 i r + w r :=
    funext fun r => by rw [hw r]; ring
  rw [hA, dotn_add_right]
  obtain ⟨coef, hcoef⟩ := hcw
  have hw' : w = fun r => ∑ l ∈ Finset.range i, coef l * qcolGS M A0 l r :=
    funext hcoef
  rw [hw', dotn_finsum_right (Finset.range i) M (qcolGS M A0 i) coef
    (qcolGS M A0)]
  have hzero : ∀ l ∈ Finset.range i,
      coef l * dotn M (qcolGS M A0 i) (qcolGS M A0 l) = 0 := by
    intro l hl
    have hlN : l < N := by
      have := Finset.mem_range.mp hl
      omega
    rw [gs_onb M N A0 hli N (le_refl N) i l hiN hlN]
    rw [if_neg (by have := Finset.mem_range.mp hl; omega)]
    ring
  rw [Finset.sum_eq_zero hzero, add_zero]
  rw [qcolGS_eq_normalize M A0 i]
  show 0 ≤ dotn M
    (fun r => ucolGS M A0 i r / l2_norm M (ucolGS M A0 i)) (ucolGS M A0 i)
  rw [dotn_div_left]
  exact div_nonneg (dotn_self_nonneg _ _) (l2_norm_nonneg _ _)

/-- Exact reconstruction for classical Gram-Schmidt: Q R recovers every
entry of the original matrix under full column rank. -/
theorem gs_recon (M N : ℕ) (A0 : ℕ → ℕ → ℝ) (hli : LinIndepCols M N A0)
    (r c : ℕ) (hcN : c < N) :
    ∑ t ∈ Finset.range N, gsQ M N A0 r t * gsR M N A0 t c = A0 r c := by
  obtain ⟨w, hcw, hw⟩ := ucolGS_rep M A0 c
  obtain ⟨γ, hγ⟩ := hcw
  have hu_ne := ucolGS_dot_ne M N A0 hli c hcN
  have hcc : l2_norm M (ucolGS M A0 c) * l2_norm M (ucolGS M A0 c)
      = dotn M (ucolGS M A0 c) (ucolGS M A0 c) :=
    l2_norm_mul_self M (ucolGS M A0 c)
  have hc_ne : l2_norm M (ucolGS M A0 c) ≠ 0 := by
    intro h0
    apply hu_ne
    rw [← hcc, h0]
    ring
  have hu_eq : ∀ r', ucolGS M A0 c r'
      = l2_norm M (ucolGS M A0 c) * qcolGS M A0 c r' := by
    intro r'
    rw [qcolGS_eq_normalize M A0 c]
    show _ = l2_norm M (ucolGS M A0 c) *
      (ucolGS M A0 c r' / l2_norm M (ucolGS M A0 c))
    field_simp
  have hrep : ∀ r', A0 r' c = ∑ l ∈ Finset.range (c + 1),
      (if l = c then l2_norm M (ucolGS M A0 c) else γ l) *
        qcolGS M A0 l r' := by
    intro r'
    rw [Finset.sum_range_succ]
    rw [Finset.sum_congr rfl (fun l hl => by
      rw [if_neg (by have := Finset.mem_range.mp hl; omega)] :
        ∀ l ∈ Finset.range c,
          (if l = c then l2_norm M (ucolGS M A0 c) else γ l) *
            qcolGS M A0 l r' = γ l * qcolGS M A0 l r')]
    rw [if_pos rfl]
    have h1 := hw r'
    have h2 := hγ r'
    have h3 := hu_eq r'
    have : A0 r' c = ucolGS M A0 c r' + w r' := by linarith
    rw [this, h2, h3]
    ring
  have hRval : ∀ t, t < N → gsR M N A0 t c
      = (if t < c + 1
          then (if t = c then l2_norm M (ucolGS M A0 c) else γ t) else 0) := by
    intro t htN
    unfold gsR
    have hQt : (fun r' => gsQ M N A0 r' t) = qcolGS M A0 t :=
      funext (gsQ_eq_qcolGS M N A0 t htN)
    rw [hQt]
    have hA : (fun r' => A0 r' c) = fun r' => ∑ l ∈ Finset.range (c + 1),
        (if l = c then l2_norm M (ucolGS M A0 c) else γ l) *
          qcolGS M A0 l r' := funext hrep
    rw [hA, dotn_finsum_right (Finset.range (c + 1)) M (qcolGS M A0 t) _
      (qcolGS M A0)]
    rw [Finset.sum_congr rfl (fun l hl => by
      rw [gs_onb M N A0 hli N (le_refl N) t l htN
        (by have := Finset.mem_range.mp hl; omega)]
      rw [mul_ite, mul_one, mul_zero] :
        ∀ l ∈ Finset.range (c + 1),
          (if l = c then l2_norm M (ucolGS M A0 c) else γ l) *
            dotn M (qcolGS M A0 t) (qcolGS M A0 l)
          = if t = l
              then (if l = c then l2_norm M (ucolGS M A0 c) else γ l)
              else 0)]
    rw [Finset.sum_ite_eq (Finset.range (c + 1)) t
      (fun l => if l = c then l2_norm M (ucolGS M A0 c) else γ l)]
    by_cases htc : t < c + 1
    · rw [if_pos (Finset.mem_range.mpr htc), if_pos htc]
    · rw [if_neg (fun hmem => htc (Finset.mem_range.mp hmem)), if_neg htc]
  have hfinal : ∑ t ∈ Finset.range N, gsQ M N A0 r t * gsR M N A0 t c
      = ∑ t ∈ Finset.range N,
          (if t < c + 1
            then (if t = c then l2_norm M (ucolGS M A0 c) else γ t) *
              qcolGS M A0 t r
            else 0) := by
    refine Finset.sum_congr rfl fun t ht => ?_
    rw [hRval t (Finset.mem_range.mp ht),
      gsQ_eq_qcolGS M N A0 t (Finset.mem_range.mp ht)]
    by_cases htc : t < c + 1
    · rw [if_pos htc, if_pos htc]
      ring
    · rw [if_neg htc, if_neg htc]
      ring
  rw [hfinal]
  rw [← Finset.sum_subset (Finset.range_subset.mpr (by omega : c + 1 ≤ N))
    (fun x _ hx => by
      rw [if_neg (fun hlt => hx (Finset.mem_range.mpr hlt))])]
  rw [Finset.sum_congr rfl (fun t ht => by
    rw [if_pos (Finset.mem_range.mp ht)] :
      ∀ t ∈ Finset.range (c + 1),
        (if t < c + 1
          then (if t = c then l2_norm M (ucolGS M A0 c) else γ t) *
            qcolGS M A0 t r
          else 0)
        = (if t = c then l2_norm M (ucolGS M A0 c) else γ t) *
            qcolGS M A0 t r)]
  exact (hrep r).symm

/-- A non-skipped elimination step i sets the diagonal entry of column i
to minus sign(a[0]) times the norm of the subcolumn, which is negative
whenever the leading entry of the subcolumn is nonnegative and the
subcolumn is nonzero. -/
theorem hhStep_diag (M K i : ℕ) (A : ℕ → ℕ → ℝ) (hi : i < M) (hiK : i < K)
    (hns : ¬ |dotn (M - i) (reflVec M A i) (reflVec M A i)| ≤ atol) :
    hhStep M K i A i i
      = -(sign (subcol A i 0) * l2_norm (M - i) (subcol A i)) := by
  have hn : 0 < M - i := by omega
  have hvv_ne : dotn (M - i) (reflVec M A i) (reflVec M A i) ≠ 0 := by
    intro h0
    apply hns
    rw [h0, abs_zero]
    unfold atol
    norm_num
  unfold hhStep
  simp only [hns, if_false]
  rw [if_pos ⟨le_refl i, hiK⟩]
  unfold hhApply
  rw [if_pos (le_refl i)]
  have hsub : (fun t => A (t + i) i) = subcol A i := rfl
  rw [hsub]
  have h2 : 2 * dotn (M - i) (reflVec M A i) (subcol A i)
      = dotn (M - i) (reflVec M A i) (reflVec M A i) :=
    (dotn_reflVec_self_eq_two_mul M A i hn).symm
  rw [h2, div_self hvv_ne, one_mul]
  have hii : i - i = 0 := by omega
  have hvr : reflVec M A i (i - i)
      = subcol A i 0 + sign (subcol A i 0) * l2_norm (M - i) (subcol A i) := by
    rw [hii]
    unfold reflVec basis_vec
    simp
  rw [hvr]
  show A i i - _ = _
  have hA : A i i = subcol A i 0 := by
    show A i i = A (0 + i) i
    rw [Nat.zero_add]
  rw [hA]
  ring

/-- The diagonal of the Householder R at a non-skipped step. -/
theorem hhR_diag_formula (M N : ℕ) (A0 : ℕ → ℕ → ℝ) (i : ℕ)
    (hiK : i < min M N) (hns : ¬ skippedAt M (min M N) A0 i) :
    hhR M N A0 i i
      = -(sign (subcol (elimUpTo M (min M N) A0 i) i 0) *
          l2_norm (M - i) (subcol (elimUpTo M (min M N) A0 i) i)) := by
  have hiM : i < M := lt_of_lt_of_le hiK (min_le_left M N)
  have hfrozen : hhR M N A0 i i = elimUpTo M (min M N) A0 (i + 1) i i :=
    elimUpTo_col_frozen M (min M N) A0 i (min M N) hiK i
  rw [hfrozen]
  exact hhStep_diag M (min M N) i (elimUpTo M (min M N) A0 i) hiM hiK hns

/-! ## Modified Gram-Schmidt: structure lemmas -/

/-- The finalized (already normalized) column j of modified
Gram-Schmidt. -/
def qcolM (M N : ℕ) (A0 : ℕ → ℕ → ℝ) (j : ℕ) : ℕ → ℝ :=
  fun r => mgsUpTo M N A0 (j + 1) r j

theorem mgsStep_col_lt (M N : ℕ) (B : ℕ → ℕ → ℝ) (i r c : ℕ) (h : c < i) :
    mgsStep M N B i r c = B r c := by
  unfold mgsStep
  have h1 : ¬ (c = i) := by omega
  have h2 : ¬ (i < c ∧ c < N) := fun hand => by omega
  rw [if_neg h1, if_neg h2]

theorem mgs_col_frozen (M N : ℕ) (A0 : ℕ → ℕ → ℝ) (c : ℕ) :
    ∀ m, c + 1 ≤ m → ∀ r, mgsUpTo M N A0 m r c = qcolM M N A0 c r := by
  intro m
  induction m with
  | zero => intro h; exact absurd h (by omega)
  | succ m ih =>
    intro h r
    rcases Nat.lt_or_ge c m with hlt | hge
    · show mgsStep M N (mgsUpTo M N A0 m) m r c = _
      rw [mgsStep_col_lt M N _ m r c hlt]
      exact ih (by omega) r
    · have : m = c := by omega
      subst this
      rfl

theorem qcolM_eq_normalize (M N : ℕ) (A0 : ℕ → ℕ → ℝ) (i : ℕ) :
    qcolM M N A0 i = normalize M (fun r => mgsUpTo M N A0 i r i) := by
  funext r
  show mgsStep M N (mgsUpTo M N A0 i) i r i = _
  unfold mgsStep
  rw [if_pos rfl]

theorem mgs_col_update (M N : ℕ) (A0 : ℕ → ℕ → ℝ) (i j : ℕ)
    (hij : i < j) (hjN : j < N) : ∀ r,
    mgsUpTo M N A0 (i + 1) r j
      = mgsUpTo M N A0 i r j -
          dotn M (fun r' => mgsUpTo M N A0 i r' j) (qcolM M N A0 i) /
            dotn M (qcolM M N A0 i) (qcolM M N A0 i) * qcolM M N A0 i r := by
  intro r
  show mgsStep M N (mgsUpTo M N A0 i) i r j = _
  unfold mgsStep
  rw [if_neg (by omega : ¬ j = i), if_pos ⟨hij, hjN⟩]
  have hq : normalize M (fun r' => mgsUpTo M N A0 i r' i) = qcolM M N A0 i :=
    (qcolM_eq_normalize M N A0 i).symm
  show mgsUpTo M N A0 i r j -
      projection M (fun r' => mgsUpTo M N A0 i r' j)
        (normalize M (fun r' => mgsUpTo M N A0 i r' i)) r = _
  rw [hq]
  rfl

/-- The full invariant of modified Gram-Schmidt after i outer steps:
finalized columns are orthonormal and combinations of the original
columns, and every not-yet-finalized column is the original column minus a
combination of the finalized ones, orthogonal to all of them. -/
theorem mgs_invariant (M N : ℕ) (A0 : ℕ → ℕ → ℝ)
    (hli : LinIndepCols M N A0) :
    ∀ i, i ≤ N →
      ((∀ j l, j < i → l < i →
          dotn M (qcolM M N A0 j) (qcolM M N A0 l) = if j = l then 1 else 0) ∧
       (∀ l, l < i → comboOf (l + 1) (acolF A0) (qcolM M N A0 l)) ∧
       (∀ j, i ≤ j → j < N → ∀ l, l < i →
          dotn M (qcolM M N A0 l) (fun r => mgsUpTo M N A0 i r j) = 0) ∧
       (∀ j, i ≤ j → j < N →
          ∃ w, comboOf i (qcolM M N A0) w ∧
            ∀ r, mgsUpTo M N A0 i r j = A0 r j - w r)) := by
  intro i
  induction i with
  | zero =>
    intro _
    refine ⟨fun j l hj hl => by omega, fun l hl => by omega,
      fun j _ _ l hl => by omega,
      fun j _ _ => ⟨fun _ => 0, comboOf_zero _ _, fun r => ?_⟩⟩
    show A0 r j = A0 r j - 0
    ring
  | succ i ih =>
    intro hiN
    obtain ⟨hONB, hQCA, hORTH, hREP⟩ := ih (by omega)
    obtain ⟨w, hcw, hw⟩ := hREP i (le_refl i) (by omega)
    have hu_ne : dotn M (fun r => mgsUpTo M N A0 i r i)
        (fun r => mgsUpTo M N A0 i r i) ≠ 0 := by
      intro h0
      have hwA : comboOf i (acolF A0) w :=
        comboOf_trans i i (qcolM M N A0) (acolF A0) w hcw
          (fun l hl => comboOf_mono (l + 1) i _ _ (by omega) (hQCA l hl))
      apply not_combo_of_linIndep M N A0 hli i (by omega) w hwA
      intro r hr
      have h1 := dotn_self_zero_coords M _ h0 r hr
      have h2 := hw r
      linarith
    have hcc := l2_norm_mul_self M (fun r => mgsUpTo M N A0 i r i)
    have hc_ne : l2_norm M (fun r => mgsUpTo M N A0 i r i) ≠ 0 := by
      intro h0
      apply hu_ne
      rw [← hcc, h0]
      ring
    have hq_eq := qcolM_eq_normalize M N A0 i
    have hqu : ∀ z : ℕ → ℝ, dotn M (qcolM M N A0 i) z
        = dotn M (fun r => mgsUpTo M N A0 i r i) z /
            l2_norm M (fun r => mgsUpTo M N A0 i r i) := by
      intro z
      rw [hq_eq]
      show dotn M (fun r => mgsUpTo M N A0 i r i /
        l2_norm M (fun r' => mgsUpTo M N A0 i r' i)) z = _
      rw [dotn_div_left]
    have hONB' : ∀ j l, j < i + 1 → l < i + 1 →
        dotn M (qcolM M N A0 j) (qcolM M N A0 l)
          = if j = l then 1 else 0 := by
      intro j l hj hl
      by_cases hji : j = i
      · subst hji
        by_cases hli' : l = j
        · subst hli'
          rw [if_pos rfl]
          rw [hqu (qcolM M N A0 l), hq_eq]
          have hdr : dotn M (fun r => mgsUpTo M N A0 l r l)
              (normalize M (fun r => mgsUpTo M N A0 l r l))
              = dotn M (fun r => mgsUpTo M N A0 l r l)
                  (fun r => mgsUpTo M N A0 l r l) /
                l2_norm M (fun r => mgsUpTo M N A0 l r l) := by
            show dotn M _ (fun r => mgsUpTo M N A0 l r l /
              l2_norm M (fun r' => mgsUpTo M N A0 l r' l)) = _
            exact dotn_div_right M _ _ _
          rw [hdr, div_div, hcc, div_self hu_ne]
        · rw [if_neg (fun h => hli' h.symm)]
          have hlt : l < j := by omega
          rw [hqu (qcolM M N A0 l)]
          rw [dotn_comm M (fun r => mgsUpTo M N A0 j r j) (qcolM M N A0 l)]
          rw [hORTH j (le_refl j) (by omega) l hlt, zero_div]
      · by_cases hli' : l = i
        · subst hli'
          rw [if_neg hji]
          have hlt : j < l := by omega
          rw [dotn_comm M (qcolM M N A0 j) (qcolM M N A0 l)]
          rw [hqu (qcolM M N A0 j)]
          rw [dotn_comm M (fun r => mgsUpTo M N A0 l r l) (qcolM M N A0 j)]
          rw [hORTH l (le_refl l) (by omega) j hlt, zero_div]
        · exact hONB j l (by omega) (by omega)
    have hQCA' : ∀ l, l < i + 1 →
        comboOf (l + 1) (acolF A0) (qcolM M N A0 l) := by
      intro l hl
      rcases Nat.lt_or_ge l i with hlt | hge
      · exact hQCA l hlt
      · have : l = i := by omega
        subst this
        rw [hq_eq]
        show comboOf (l + 1) (acolF A0)
          (fun r => mgsUpTo M N A0 l r l /
            l2_norm M (fun r' => mgsUpTo M N A0 l r' l))
        apply comboOf_div
        have hu : (fun r => mgsUpTo M N A0 l r l)
            = fun r => A0 r l - w r := funext hw
        rw [hu]
        apply comboOf_sub
        · exact comboOf_mem (l + 1) l (acolF A0) (by omega)
        · exact comboOf_trans l (l + 1) (qcolM M N A0) (acolF A0) w hcw
            (fun p hp => comboOf_mono (p + 1) (l + 1) _ _ (by omega)
              (hQCA p hp))
    have hORTH' : ∀ j, i + 1 ≤ j → j < N → ∀ l, l < i + 1 →
        dotn M (qcolM M N A0 l) (fun r => mgsUpTo M N A0 (i + 1) r j)
          = 0 := by
      intro j hij hjN l hl
      have hupd : (fun r => mgsUpTo M N A0 (i + 1) r j)
          = fun r => mgsUpTo M N A0 i r j -
              dotn M (fun r' => mgsUpTo M N A0 i r' j) (qcolM M N A0 i) /
                dotn M (qcolM M N A0 i) (qcolM M N A0 i) *
                  qcolM M N A0 i r :=
        funext (mgs_col_update M N A0 i j (by omega) hjN)
      rw [hupd, dotn_sub_right, dotn_smul_right]
      rcases Nat.lt_or_ge l i with hlt | hge
      · rw [hORTH j (by omega) hjN l hlt]
        rw [hONB' l i (by omega) (by omega), if_neg (by omega)]
        ring
      · have : l = i := by omega
        subst this
        rw [hONB' l l (by omega) (by omega), if_pos rfl]
        rw [dotn_comm M (fun r' => mgsUpTo M N A0 l r' j) (qcolM M N A0 l)]
        simp
    have hREP' : ∀ j, i + 1 ≤ j → j < N →
        ∃ w', comboOf (i + 1) (qcolM M N A0) w' ∧
          ∀ r, mgsUpTo M N A0 (i + 1) r j = A0 r j - w' r := by
      intro j hij hjN
      obtain ⟨wj, hcwj, hwj⟩ := hREP j (by omega) hjN
      refine ⟨fun r => wj r +
        dotn M (fun r' => mgsUpTo M N A0 i r' j) (qcolM M N A0 i) /
          dotn M (qcolM M N A0 i) (qcolM M N A0 i) * qcolM M N A0 i r,
        ?_, ?_⟩
      · exact comboOf_add _ _ _ _
          (comboOf_mono i (i + 1) _ _ (by omega) hcwj)
          (comboOf_smul (i + 1) _ _ _ (comboOf_mem (i + 1) i _ (by omega)))
      · intro r
        rw [mgs_col_update M N A0 i j (by omega) hjN r, hwj r]
        ring
    exact ⟨hONB', hQCA', hORTH', hREP'⟩

theorem mgsQ_eq_qcolM (M N : ℕ) (A0 : ℕ → ℕ → ℝ) (i : ℕ) (hiN : i < N) :
    ∀ r, mgsQ M N A0 r i = qcolM M N A0 i r := by
  intro r
  exact mgs_col_frozen M N A0 i N (by omega) r

/-- Under full column rank the modified Gram-Schmidt residual at step i
has nonzero self-dot-product. -/
theorem mgs_residual_ne (M N : ℕ) (A0 : ℕ → ℕ → ℝ)
    (hli : LinIndepCols M N A0) (i : ℕ) (hiN : i < N) :
    dotn M (fun r => mgsUpTo M N A0 i r i)
      (fun r => mgsUpTo M N A0 i r i) ≠ 0 := by
  obtain ⟨hONB, hQCA, hORTH, hREP⟩ := mgs_invariant M N A0 hli i (by omega)
  obtain ⟨w, hcw, hw⟩ := hREP i (le_refl i) hiN
  intro h0
  have hwA : comboOf i (acolF A0) w :=
    comboOf_trans i i (qcolM M N A0) (acolF A0) w hcw
      (fun l hl => comboOf_mono (l + 1) i _ _ (by omega) (hQCA l hl))
  apply not_combo_of_linIndep M N A0 hli i hiN w hwA
  intro r hr
  have h1 := dotn_self_zero_coords M _ h0 r hr
  have h2 := hw r
  linarith

/-- The recovered R of modified Gram-Schmidt has nonnegative diagonal
entries under full column rank. -/
theorem mgs_diag_nonneg (M N : ℕ) (A0 : ℕ → ℕ → ℝ)
    (hli : LinIndepCols M N A0) (i : ℕ) (hiN : i < N) :
    0 ≤ mgsR M N A0 i i := by
  obtain ⟨hONB, hQCA, hORTH, hREP⟩ := mgs_invariant M N A0 hli i (by omega)
  obtain ⟨w, hcw, hw⟩ := hREP i (le_refl i) hiN
  unfold mgsR
  have hQ : (fun r => mgsQ M N A0 r i) = qcolM M N A0 i :=
    funext (mgsQ_eq_qcolM M N A0 i hiN)
  rw [hQ]
  have hA : (fun r => A0 r i)
      = fun r => mgsUpTo M N A0 i r i + w r :=
    funext fun r => by rw [hw r]; ring
  rw [hA, dotn_add_right]
  have hqu : ∀ z : ℕ → ℝ, dotn M (qcolM M N A0 i) z
      = dotn M (fun r => mgsUpTo M N A0 i r i) z /
          l2_norm M (fun r => mgsUpTo M N A0 i r i) := by
    intro z
    rw [qcolM_eq_normalize M N A0 i]
    show dotn M (fun r => mgsUpTo M N A0 i r i /
      l2_norm M (fun r' => mgsUpTo M N A0 i r' i)) z = _
    rw [dotn_div_left]
  obtain ⟨coef, hcoef⟩ := hcw
  have hw' : w = fun r => ∑ l ∈ Finset.range i, coef l * qcolM M N A0 l r :=
    funext hcoef
  rw [hw', dotn_finsum_right (Finset.range i) M (qcolM M N A0 i) coef
    (qcolM M N A0)]
  have hzero : ∀ l ∈ Finset.range i,
      coef l * dotn M (qcolM M N A0 i) (qcolM M N A0 l) = 0 := by
    intro l hl
    rw [hqu (qcolM M N A0 l)]
    rw [dotn_comm M (fun r => mgsUpTo M N A0 i r i) (qcolM M N A0 l)]
    rw [hORTH i (le_refl i) hiN l (Finset.mem_range.mp hl), zero_div]
    ring
  rw [Finset.sum_eq_zero hzero, add_zero]
  rw [hqu (fun r => mgsUpTo M N A0 i r i)]
  exact div_nonneg (dotn_self_nonneg _ _) (l2_norm_nonneg _ _)

/-- Exact reconstruction for modified Gram-Schmidt under full column
rank. -/
theorem mgs_recon (M N : ℕ) (A0 : ℕ → ℕ → ℝ) (hli : LinIndepCols M N A0)
    (r c : ℕ) (hcN : c < N) :
    ∑ t ∈ Finset.range N, mgsQ M N A0 r t * mgsR M N A0 t c = A0 r c := by
  obtain ⟨hONBc, hQCAc, hORTHc, hREPc⟩ :=
    mgs_invariant M N A0 hli c (by omega)
  obtain ⟨hONBN, hQCAN, hORTHN, hREPN⟩ :=
    mgs_invariant M N A0 hli N (le_refl N)
  obtain ⟨w, hcw, hw⟩ := hREPc c (le_refl c) hcN
  obtain ⟨γ, hγ⟩ := hcw
  have hu_ne := mgs_residual_ne M N A0 hli c hcN
  have hcc := l2_norm_mul_self M (fun r => mgsUpTo M N A0 c r c)
  have hc_ne : l2_norm M (fun r => mgsUpTo M N A0 c r c) ≠ 0 := by
    intro h0
    apply hu_ne
    rw [← hcc, h0]
    ring
  have hu_eq : ∀ r', mgsUpTo M N A0 c r' c
      = l2_norm M (fun r'' => mgsUpTo M N A0 c r'' c) *
          qcolM M N A0 c r' := by
    intro r'
    rw [qcolM_eq_normalize M N A0 c]
    show _ = l2_norm M (fun r'' => mgsUpTo M N A0 c r'' c) *
      (mgsUpTo M N A0 c r' c / l2_norm M (fun r'' => mgsUpTo M N A0 c r'' c))
    field_simp
  have hrep : ∀ r', A0 r' c = ∑ l ∈ Finset.range (c + 1),
      (if l = c then l2_norm M (fun r'' => mgsUpTo M N A0 c r'' c)
        else γ l) * qcolM M N A0 l r' := by
    intro r'
    rw [Finset.sum_range_succ]
    rw [Finset.sum_congr rfl (fun l hl => by
      rw [if_neg (by have := Finset.mem_range.mp hl; omega)] :
        ∀ l ∈ Finset.range c,
          (if l = c then l2_norm M (fun r'' => mgsUpTo M N A0 c r'' c)
            else γ l) * qcolM M N A0 l r' = γ l * qcolM M N A0 l r')]
    rw [if_pos rfl]
    have h1 := hw r'
    have h2 := hγ r'
    have h3 := hu_eq r'
    have : A0 r' c = mgsUpTo M N A0 c r' c + w r' := by linarith
    rw [this, h2, h3]
    ring
  have hRval : ∀ t, t < N → mgsR M N A0 t c
      = (if t < c + 1
          then (if t = c then l2_norm M (fun r'' => mgsUpTo M N A0 c r'' c)
            else γ t) else 0) := by
    intro t htN
    unfold mgsR
    have hQt : (fun r' => mgsQ M N A0 r' t) = qcolM M N A0 t :=
      funext (mgsQ_eq_qcolM M N A0 t htN)
    rw [hQt]
    have hA : (fun r' => A0 r' c) = fun r' => ∑ l ∈ Finset.range (c + 1),
        (if l = c then l2_norm M (fun r'' => mgsUpTo M N A0 c r'' c)
          else γ l) * qcolM M N A0 l r' := funext hrep
    rw [hA, dotn_finsum_right (Finset.range (c + 1)) M (qcolM M N A0 t) _
      (qcolM M N A0)]
    rw [Finset.sum_congr rfl (fun l hl => by
      rw [hONBN t l htN (by have := Finset.mem_range.mp hl; omega)]
      rw [mul_ite, mul_one, mul_zero] :
        ∀ l ∈ Finset.range (c + 1),
          (if l = c then l2_norm M (fun r'' => mgsUpTo M N A0 c r'' c)
            else γ l) * dotn M (qcolM M N A0 t) (qcolM M N A0 l)
          = if t = l
              then (if l = c
                then l2_norm M (fun r'' => mgsUpTo M N A0 c r'' c)
                else γ l)
              else 0)]
    rw [Finset.sum_ite_eq (Finset.range (c + 1)) t
      (fun l => if l = c then l2_norm M (fun r'' => mgsUpTo M N A0 c r'' c)
        else γ l)]
    by_cases htc : t < c + 1
    · rw [if_pos (Finset.mem_range.mpr htc), if_pos htc]
    · rw [if_neg (fun hmem => htc (Finset.mem_range.mp hmem)), if_neg htc]
  have hfinal : ∑ t ∈ Finset.range N, mgsQ M N A0 r t * mgsR M N A0 t c
      = ∑ t ∈ Finset.range N,
          (if t < c + 1
            then (if t = c then l2_norm M (fun r'' => mgsUpTo M N A0 c r'' c)
              else γ t) * qcolM M N A0 t r
            else 0) := by
    refine Finset.sum_congr rfl fun t ht => ?_
    rw [hRval t (Finset.mem_range.mp ht),
      mgsQ_eq_qcolM M N A0 t (Finset.mem_range.mp ht)]
    by_cases htc : t < c + 1
    · rw [if_pos htc, if_pos htc]
      ring
    · rw [if_neg htc, if_neg htc]
      ring
  rw [hfinal]
  rw [← Finset.sum_subset (Finset.range_subset.mpr (by omega : c + 1 ≤ N))
    (fun x _ hx => by
      rw [if_neg (fun hlt => hx (Finset.mem_range.mpr hlt))])]
  rw [Finset.sum_congr rfl (fun t ht => by
    rw [if_pos (Finset.mem_range.mp ht)] :
      ∀ t ∈ Finset.range (c + 1),
        (if t < c + 1
          then (if t = c then l2_norm M (fun r'' => mgsUpTo M N A0 c r'' c)
            else γ t) * qcolM M N A0 t r
          else 0)
        = (if t = c then l2_norm M (fun r'' => mgsUpTo M N A0 c r'' c)
            else γ t) * qcolM M N A0 t r)]
  exact (hrep r).symm

/-! ## Claim C2 -/

/-- Claim C2, amended: for every full-column-rank input, both Gram-Schmidt
variants return Q, R with Q R = A exactly (idealized arithmetic) and with
every diagonal entry of R nonnegative; the Householder method returns
Q R = A provided no elimination step is skipped by the absolute-tolerance
isclose test, but its R diagonal entries equal minus sign(a[0]) times the
subcolumn norm at each non-skipped step and can therefore be negative (the
code does not force them nonnegative). -/
theorem claim_C2_reconstruction_and_diagonals :
    (∀ (A : Mat) (red : Bool), LinIndepCols A.rows A.cols A.entry →
      (∀ i, i < A.cols → 0 ≤ ((QRinit A red).gram_schmidt).2.2.entry i i) ∧
      (∀ r c, c < A.cols →
        (matMul ((QRinit A red).gram_schmidt).2.1
          ((QRinit A red).gram_schmidt).2.2).entry r c = A.entry r c)) ∧
    (∀ (A : Mat) (red : Bool), LinIndepCols A.rows A.cols A.entry →
      (∀ i, i < A.cols →
        0 ≤ ((QRinit A red).gram_schmidt_modified).2.2.entry i i) ∧
      (∀ r c, c < A.cols →
        (matMul ((QRinit A red).gram_schmidt_modified).2.1
          ((QRinit A red).gram_schmidt_modified).2.2).entry r c
          = A.entry r c)) ∧
    (∀ (A : Mat), A.cols ≤ A.rows →
      (∀ i, i < min A.rows A.cols →
        ¬ skippedAt A.rows (min A.rows A.cols) A.entry i) →
      ∀ r c, r < A.rows → c < A.cols →
        (matMul ((QRinit A false).householder).2.1
          ((QRinit A false).householder).2.2).entry r c = A.entry r c) ∧
    (∀ M N (A0 : ℕ → ℕ → ℝ) i, i < min M N →
      ¬ skippedAt M (min M N) A0 i →
      hhR M N A0 i i
        = -(sign (subcol (elimUpTo M (min M N) A0 i) i 0) *
            l2_norm (M - i) (subcol (elimUpTo M (min M N) A0 i) i))) := by
  refine ⟨?_, ?_, ?_, ?_⟩
  · intro A red hli
    constructor
    · intro i hi
      exact gs_diag_nonneg A.rows A.cols A.entry hli i hi
    · intro r c hc
      show dotn A.cols (fun t => gsQ A.rows A.cols A.entry r t)
        (fun t => gsR A.rows A.cols A.entry t c) = A.entry r c
      unfold dotn
      exact gs_recon A.rows A.cols A.entry hli r c hc
  · intro A red hli
    constructor
    · intro i hi
      exact mgs_diag_nonneg A.rows A.cols A.entry hli i hi
    · intro r c hc
      show dotn A.cols (fun t => mgsQ A.rows A.cols A.entry r t)
        (fun t => mgsR A.rows A.cols A.entry t c) = A.entry r c
      unfold dotn
      exact mgs_recon A.rows A.cols A.entry hli r c hc
  · intro A hNM hnoskip r c hr hc
    show dotn A.rows (fun t => hhQ A.rows (min A.rows A.cols) A.entry r t)
      (fun t => hhR A.rows A.cols A.entry t c) = A.entry r c
    exact hh_recon A.rows A.cols A.entry hNM hnoskip r c hr hc
  · intro M N A0 i hiK hns
    exact hhR_diag_formula M N A0 i hiK hns

/-- The 1 x 1 matrix [[1]]. -/
def exOne : ℕ → ℕ → ℝ := fun _ _ => 1

theorem exOne_linIndep : LinIndepCols 1 1 exOne := by
  intro coef h j hj
  have hj0 : j = 0 := by omega
  subst hj0
  have h0 := h 0 (by norm_num)
  rw [Finset.sum_range_one] at h0
  have : exOne 0 0 = 1 := rfl
  rw [this, mul_one] at h0
  exact h0

theorem exOne_noskip :
    ∀ i, i < min 1 1 → ¬ skippedAt 1 (min 1 1) exOne i := by
  intro i hi
  have hi0 : i = 0 := by omega
  subst hi0
  unfold skippedAt vsAt
  show ¬ |dotn (1 - 0) (reflVec 1 exOne 0) (reflVec 1 exOne 0)| ≤ atol
  have hnorm : l2_norm 1 (subcol exOne 0) = 1 := by
    unfold l2_norm
    rw [dotn_succ, dotn_zero]
    norm_num [subcol, exOne, Real.sqrt_one]
  have hv0 : reflVec 1 exOne 0 0 = 2 := by
    unfold reflVec
    rw [hnorm]
    norm_num [subcol, exOne, sign, basis_vec]
  show ¬ |dotn 1 (reflVec 1 exOne 0) (reflVec 1 exOne 0)| ≤ atol
  rw [dotn_succ, dotn_zero, hv0]
  unfold atol
  norm_num

/-- Witness for the C2 theorem at the 1 x 1 full-rank input [[1]]. -/
theorem claim_C2_witness :
    LinIndepCols 1 1 exOne ∧
    (∀ i, i < min 1 1 → ¬ skippedAt 1 (min 1 1) exOne i) ∧
    (0 ≤ ((QRinit ⟨1, 1, exOne⟩ false).gram_schmidt).2.2.entry 0 0) ∧
    ((matMul ((QRinit ⟨1, 1, exOne⟩ false).householder).2.1
      ((QRinit ⟨1, 1, exOne⟩ false).householder).2.2).entry 0 0
        = exOne 0 0) :=
  ⟨exOne_linIndep, exOne_noskip,
    (claim_C2_reconstruction_and_diagonals.1 ⟨1, 1, exOne⟩ false
      exOne_linIndep).1 0 (by norm_num),
    claim_C2_reconstruction_and_diagonals.2.2.1 ⟨1, 1, exOne⟩
      (by norm_num) exOne_noskip 0 0 (by norm_num) (by norm_num)⟩

/-- The 2 x 2 matrix [[0, 1e-4], [5e-5, 1e-4]] (entries as exact
fractions).  Its condition number is about 5, yet the first Householder
step is skipped because the reflection vector's self-dot-product 5e-9 lies
under the absolute tolerance 1e-8. -/
def exSmall : ℕ → ℕ → ℝ := fun r c =>
  if r = 0 then (if c = 0 then 0 else 1 / 10000)
  else if r = 1 then (if c = 0 then 1 / 20000 else 1 / 10000)
  else 0

theorem exSmall_linIndep : LinIndepCols 2 2 exSmall := by
  intro coef h j hj
  have h0 := h 0 (by norm_num)
  have h1 := h 1 (by norm_num)
  rw [Finset.sum_range_succ, Finset.sum_range_one] at h0 h1
  have e00 : exSmall 0 0 = 0 := rfl
  have e01 : exSmall 0 1 = 1 / 10000 := rfl
  have e10 : exSmall 1 0 = 1 / 20000 := rfl
  have e11 : exSmall 1 1 = 1 / 10000 := rfl
  rw [e00, e01] at h0
  rw [e10, e11] at h1
  have hc1 : coef 1 = 0 := by linarith
  have hc0 : coef 0 = 0 := by
    rw [hc1] at h1
    linarith
  rcases (by omega : j = 0 ∨ j = 1) with hj0 | hj1
  · rw [hj0]; exact hc0
  · rw [hj1]; exact hc1

theorem exSmall_c0 : l2_norm 2 (subcol exSmall 0) = 1 / 20000 := by
  unfold l2_norm
  rw [dotn_succ, dotn_succ, dotn_zero]
  have e0 : subcol exSmall 0 0 = 0 := rfl
  have e1 : subcol exSmall 0 1 = 1 / 20000 := rfl
  rw [e0, e1]
  rw [show (0:ℝ) + 0 * 0 + 1 / 20000 * (1 / 20000) = (1 / 20000) ^ 2 by ring]
  exact Real.sqrt_sq (by norm_num)

theorem exSmall_v00 : reflVec 2 exSmall 0 0 = 1 / 20000 := by
  unfold reflVec
  rw [exSmall_c0]
  have e0 : subcol exSmall 0 0 = 0 := rfl
  rw [e0]
  norm_num [sign, basis_vec]

theorem exSmall_v01 : reflVec 2 exSmall 0 1 = 1 / 20000 := by
  unfold reflVec
  rw [exSmall_c0]
  have e1 : subcol exSmall 0 1 = 1 / 20000 := rfl
  rw [e1]
  norm_num [basis_vec]

theorem exSmall_skip0 :
    |dotn (2 - 0) (reflVec 2 exSmall 0) (reflVec 2 exSmall 0)| ≤ atol := by
  show |dotn 2 (reflVec 2 exSmall 0) (reflVec 2 exSmall 0)| ≤ atol
  rw [dotn_succ, dotn_succ, dotn_zero, exSmall_v00, exSmall_v01]
  rw [show (0:ℝ) + 1 / 20000 * (1 / 20000) + 1 / 20000 * (1 / 20000)
    = 1 / 200000000 by norm_num]
  rw [abs_of_nonneg (by norm_num : (0:ℝ) ≤ 1 / 200000000)]
  unfold atol
  norm_num

theorem exSmall_elim1 : elimUpTo 2 2 exSmall 1 = exSmall := by
  show hhStep 2 2 0 exSmall = exSmall
  exact hhStep_skip 2 2 0 exSmall exSmall_skip0

theorem exSmall_c1 : l2_norm 1 (subcol exSmall 1) = 1 / 10000 := by
  unfold l2_norm
  rw [dotn_succ, dotn_zero]
  have e0 : subcol exSmall 1 0 = 1 / 10000 := rfl
  rw [e0]
  rw [show (0:ℝ) + 1 / 10000 * (1 / 10000) = (1 / 10000) ^ 2 by ring]
  exact Real.sqrt_sq (by norm_num)

theorem exSmall_v10 : reflVec 2 exSmall 1 0 = 1 / 5000 := by
  show subcol exSmall 1 0 +
    sign (subcol exSmall 1 0) * l2_norm (2 - 1) (subcol exSmall 1) *
      basis_vec 0 0 = 1 / 5000
  rw [show (2:ℕ) - 1 = 1 from rfl, exSmall_c1]
  have e0 : subcol exSmall 1 0 = 1 / 10000 := rfl
  rw [e0]
  norm_num [sign, basis_vec]

theorem exSmall_dvv1 :
    dotn 1 (reflVec 2 exSmall 1) (reflVec 2 exSmall 1) = 1 / 25000000 := by
  rw [dotn_succ, dotn_zero, exSmall_v10]
  norm_num

theorem exSmall_ns1 :
    ¬ |dotn (2 - 1) (reflVec 2 exSmall 1) (reflVec 2 exSmall 1)| ≤ atol := by
  show ¬ |dotn 1 (reflVec 2 exSmall 1) (reflVec 2 exSmall 1)| ≤ atol
  rw [exSmall_dvv1]
  rw [abs_of_nonneg (by norm_num : (0:ℝ) ≤ 1 / 25000000)]
  unfold atol
  norm_num

theorem exSmall_hhR_eq : hhR 2 2 exSmall = hhStep 2 2 1 exSmall := by
  show hhStep 2 2 1 (elimUpTo 2 2 exSmall 1) = _
  rw [exSmall_elim1]

theorem exSmall_R00 : hhR 2 2 exSmall 0 0 = 0 := by
  rw [exSmall_hhR_eq]
  unfold hhStep
  simp only [exSmall_ns1, if_false]
  rw [if_neg (by omega : ¬ ((1:ℕ) ≤ 0 ∧ (0:ℕ) < 2))]
  rfl

theorem exSmall_R10 : hhR 2 2 exSmall 1 0 = 1 / 20000 := by
  rw [exSmall_hhR_eq]
  unfold hhStep
  simp only [exSmall_ns1, if_false]
  rw [if_neg (by omega : ¬ ((1:ℕ) ≤ 0 ∧ (0:ℕ) < 2))]
  rfl

theorem exSmall_Q1 : ∀ c,
    hhQ 2 2 exSmall 1 c = qApply 2 1 (reflVec 2 exSmall 1) (basis_vec c) 1 := by
  intro c
  show qColSteps 2 2 exSmall (basis_vec c) 2 1 = _
  have houter : qColSteps 2 2 exSmall (basis_vec c) 2
      = qApply 2 (2 - 2) (vsAt 2 2 exSmall (2 - 2))
          (qColSteps 2 2 exSmall (basis_vec c) 1) := rfl
  rw [houter]
  rw [show (2:ℕ) - 2 = 0 from rfl]
  have hv0 : vsAt 2 2 exSmall 0 = reflVec 2 exSmall 0 := rfl
  rw [hv0, qApply_skip 2 0 (reflVec 2 exSmall 0) _ exSmall_skip0]
  have hinner : qColSteps 2 2 exSmall (basis_vec c) 1
      = qApply 2 (2 - 1) (vsAt 2 2 exSmall (2 - 1)) (basis_vec c) := rfl
  rw [hinner, show (2:ℕ) - 1 = 1 from rfl]
  have hv1 : vsAt 2 2 exSmall 1 = reflVec 2 exSmall 1 := by
    unfold vsAt
    rw [exSmall_elim1]
  rw [hv1]

theorem exSmall_Q10 : hhQ 2 2 exSmall 1 0 = 0 := by
  rw [exSmall_Q1 0]
  unfold qApply
  simp only [exSmall_ns1, if_false]
  unfold hhApply
  rw [if_pos (le_refl 1)]
  have hdot : dotn (2 - 1) (reflVec 2 exSmall 1)
      (fun t => basis_vec 0 (t + 1)) = 0 := by
    show dotn 1 _ _ = 0
    rw [dotn_succ, dotn_zero]
    norm_num [basis_vec]
  rw [hdot]
  norm_num [basis_vec]

theorem exSmall_Q11 : hhQ 2 2 exSmall 1 1 = -1 := by
  rw [exSmall_Q1 1]
  unfold qApply
  simp only [exSmall_ns1, if_false]
  unfold hhApply
  rw [if_pos (le_refl 1)]
  have hdot : dotn (2 - 1) (reflVec 2 exSmall 1)
      (fun t => basis_vec 1 (t + 1)) = 1 / 5000 := by
    show dotn 1 _ _ = 1 / 5000
    rw [dotn_succ, dotn_zero]
    norm_num [basis_vec, exSmall_v10]
  rw [hdot]
  rw [show (2:ℕ) - 1 = 1 from rfl]
  rw [exSmall_dvv1]
  rw [show (1:ℕ) - 1 = 0 from rfl, exSmall_v10]
  norm_num [basis_vec]

theorem exOne_norm : l2_norm 1 (subcol exOne 0) = 1 := by
  unfold l2_norm
  rw [dotn_succ, dotn_zero]
  norm_num [subcol, exOne, Real.sqrt_one]

theorem exOne_R00 : hhR 1 1 exOne 0 0 = -1 := by
  have hdiag := hhR_diag_formula 1 1 exOne 0 (by norm_num)
    (exOne_noskip 0 (by norm_num))
  rw [hdiag]
  show -(sign (subcol exOne 0 0) * l2_norm (1 - 0) (subcol exOne 0)) = -1
  rw [show (1:ℕ) - 0 = 1 from rfl, exOne_norm]
  have e0 : subcol exOne 0 0 = 1 := rfl
  rw [e0]
  norm_num [sign]

/-- Claim C2, counterexample: the 1 x 1 full-rank input [[1]] makes
Householder return R = [[-1]] with a negative diagonal entry, and the
well-conditioned full-rank 2 x 2 input [[0, 1e-4], [5e-5, 1e-4]] makes
the isclose test skip step 0, after which Q R differs from A at entry
(1, 0) by 1e-4, far beyond tolerance. -/
theorem claim_C2_counterexample :
    (LinIndepCols 1 1 exOne ∧
      ((QRinit ⟨1, 1, exOne⟩ false).householder).2.2.entry 0 0 = -1) ∧
    (LinIndepCols 2 2 exSmall ∧
      (matMul ((QRinit ⟨2, 2, exSmall⟩ false).householder).2.1
        ((QRinit ⟨2, 2, exSmall⟩ false).householder).2.2).entry 1 0
          = -(1 / 20000) ∧
      exSmall 1 0 = 1 / 20000 ∧
      ¬ |(-(1 / 20000) : ℝ) - 1 / 20000| ≤ atol) := by
  refine ⟨⟨exOne_linIndep, ?_⟩, exSmall_linIndep, ?_, rfl, ?_⟩
  · show hhR 1 1 exOne 0 0 = -1
    exact exOne_R00
  · show dotn 2 (fun t => hhQ 2 2 exSmall 1 t)
      (fun t => hhR 2 2 exSmall t 0) = -(1 / 20000)
    rw [dotn_succ, dotn_succ, dotn_zero]
    rw [exSmall_Q10, exSmall_Q11, exSmall_R00, exSmall_R10]
    norm_num
  · unfold atol
    rw [show (-(1 / 20000) : ℝ) - 1 / 20000 = -(1 / 10000) by norm_num]
    rw [abs_neg, abs_of_nonneg (by norm_num : (0:ℝ) ≤ 1 / 10000)]
    norm_num

/-! ## The Kahan accumulator is exact over the reals -/

theorem kahanAdd_exact (s t : ℝ) :
    kahanAdd ⟨s, 0⟩ t = ⟨s + t, 0⟩ := by
  unfold kahanAdd
  simp only [KahanState.mk.injEq]
  constructor <;> ring

theorem kahan_foldl_exact (l : List ℝ) :
    ∀ s : ℝ, l.foldl kahanAdd ⟨s, 0⟩ = ⟨s + l.sum, 0⟩ := by
  induction l with
  | nil => intro s; simp
  | cons t l ih =>
    intro s
    rw [List.foldl_cons, kahanAdd_exact, ih (s + t), List.sum_cons]
    rw [show s + t + l.sum = s + (t + l.sum) by ring]

/-- In exact arithmetic the compensated accumulator computes the plain
sum (the correction term stays zero). -/
theorem kahan_exact (l : List ℝ) : kahanResult (kahanRun l) = l.sum := by
  unfold kahanRun kahanInit kahanResult
  rw [kahan_foldl_exact l 0]
  show 0 + l.sum = l.sum
  ring

/-! ## Back-substitution lemmas -/

theorem backSubCol_unassigned (Rm : ℕ → ℕ → ℝ) (K : ℕ) (ycol : ℕ → ℝ) :
    ∀ m, m ≤ K → ∀ r, (r < K - m ∨ K ≤ r) →
      backSubCol Rm K ycol m r = 0 := by
  intro m
  induction m with
  | zero => intro _ r _; rfl
  | succ m ih =>
    intro hm r hr
    have hKpos : 0 < K := by omega
    have hne : r ≠ K - (m + 1) := by omega
    show (if r = K - (m + 1) then _ else backSubCol Rm K ycol m r) = 0
    rw [if_neg hne]
    exact ih (by omega) r (by omega)

theorem backSubCol_stable (Rm : ℕ → ℕ → ℝ) (K : ℕ) (ycol : ℕ → ℝ)
    (m : ℕ) (r : ℕ) (hrm : K - m ≤ r) (_hrK : r < K) :
    ∀ m', m ≤ m' → m' ≤ K →
      backSubCol Rm K ycol m' r = backSubCol Rm K ycol m r := by
  intro m'
  induction m' with
  | zero =>
    intro h1 _
    have : m = 0 := by omega
    rw [this]
  | succ m' ih =>
    intro h1 h2
    rcases Nat.lt_or_ge m (m' + 1) with hlt | hge
    · rcases Nat.lt_or_ge m' m with hc | hc
      · have : m = m' + 1 := by omega
        rw [this]
      · have hne : r ≠ K - (m' + 1) := by omega
        show (if r = K - (m' + 1) then _
          else backSubCol Rm K ycol m' r) = _
        rw [if_neg hne]
        exact ih (by omega) (by omega)
    · have : m = m' + 1 := by omega
      rw [this]

/-- The assigned value of row i of back substitution, exactly as the
source computes it: the descending Kahan accumulation divided by the
diagonal entry. -/
theorem bsub_assigned (Rm : ℕ → ℕ → ℝ) (K : ℕ) (ycol : ℕ → ℝ) (i : ℕ)
    (hiK : i < K) :
    bsub Rm K ycol i
      = (ycol i - kahanResult (kahanRun ((List.range (K - 1 - i)).map
          (fun t => Rm i (K - 1 - t) * bsub Rm K ycol (K - 1 - t))))) /
        Rm i i := by
  have hm : i = K - (K - 1 - i + 1) := by omega
  have hstep : backSubCol Rm K ycol (K - 1 - i + 1) i
      = (ycol (K - (K - 1 - i + 1)) -
          kahanResult (kahanRun ((List.range (K - 1 - (K - (K - 1 - i + 1)))).map
            (fun t => Rm (K - (K - 1 - i + 1)) (K - 1 - t) *
              backSubCol Rm K ycol (K - 1 - i) (K - 1 - t))))) /
        Rm (K - (K - 1 - i + 1)) (K - (K - 1 - i + 1)) := by
    show (if i = K - (K - 1 - i + 1) then _ else _) = _
    rw [if_pos hm]
  have hi' : K - (K - 1 - i + 1) = i := by omega
  rw [hi'] at hstep
  have hfull : bsub Rm K ycol i = backSubCol Rm K ycol (K - 1 - i + 1) i := by
    unfold bsub
    exact backSubCol_stable Rm K ycol (K - 1 - i + 1) i (by omega) hiK
      K (by omega) (le_refl K)
  rw [hfull, hstep]
  have hlist : ∀ t, t < K - 1 - i →
      backSubCol Rm K ycol (K - 1 - i) (K - 1 - t)
        = bsub Rm K ycol (K - 1 - t) := by
    intro t ht
    unfold bsub
    exact (backSubCol_stable Rm K ycol (K - 1 - i) (K - 1 - t)
      (by omega) (by omega) K (by omega) (le_refl K)).symm
  have hmap : (List.range (K - 1 - i)).map
      (fun t => Rm i (K - 1 - t) * backSubCol Rm K ycol (K - 1 - i) (K - 1 - t))
      = (List.range (K - 1 - i)).map
        (fun t => Rm i (K - 1 - t) * bsub Rm K ycol (K - 1 - t)) := by
    apply List.map_congr_left
    intro t ht
    rw [hlist t (List.mem_range.mp ht)]
  rw [hmap]

theorem bsub_zero_of_ge (Rm : ℕ → ℕ → ℝ) (K : ℕ) (ycol : ℕ → ℝ) (i : ℕ)
    (hiK : K ≤ i) : bsub Rm K ycol i = 0 :=
  backSubCol_unassigned Rm K ycol K (le_refl K) i (Or.inr hiK)

/-- The descending Kahan-accumulated list sums to the textbook sum over
the column indices j = i+1 .. K-1. -/
theorem list_range_map_sum (n : ℕ) (f : ℕ → ℝ) :
    ((List.range n).map f).sum = ∑ t ∈ Finset.range n, f t := by
  induction n with
  | zero => simp
  | succ n ih =>
    rw [List.range_succ, List.map_append, List.sum_append,
      Finset.sum_range_succ, ih]
    simp

theorem bsub_list_sum (Rm : ℕ → ℕ → ℝ) (K : ℕ) (ycol : ℕ → ℝ) (i : ℕ)
    (hiK : i < K) :
    ((List.range (K - 1 - i)).map
      (fun t => Rm i (K - 1 - t) * bsub Rm K ycol (K - 1 - t))).sum
      = ∑ j ∈ Finset.Ico (i + 1) K, Rm i j * bsub Rm K ycol j := by
  have hlist : ((List.range (K - 1 - i)).map
      (fun t => Rm i (K - 1 - t) * bsub Rm K ycol (K - 1 - t))).sum
      = ∑ t ∈ Finset.range (K - 1 - i),
          Rm i (K - 1 - t) * bsub Rm K ycol (K - 1 - t) :=
    list_range_map_sum (K - 1 - i)
      (fun t => Rm i (K - 1 - t) * bsub Rm K ycol (K - 1 - t))
  rw [hlist]
  rw [Finset.sum_Ico_eq_sum_range]
  have hreflect := Finset.sum_range_reflect
    (fun t => Rm i (i + 1 + t) * bsub Rm K ycol (i + 1 + t)) (K - 1 - i)
  have hcount : K - (i + 1) = K - 1 - i := by omega
  rw [hcount]
  rw [← hreflect]
  refine Finset.sum_congr rfl fun t ht => ?_
  have htlt := Finset.mem_range.mp ht
  have hidx : i + 1 + (K - 1 - i - 1 - t) = K - 1 - t := by omega
  rw [hidx]

/-! ## Characterizing householder and solve at the engine level -/

/-- First entry accessor of a returned solution array (row i; a 0-D
scalar ignores the row index). -/
def arrEntry1 : Arr → ℕ → ℝ
  | .a0 v, _ => v
  | .a1 _ f, i => f i
  | .a2 _ _ f, i => f i 0

/-- Entry accessor of a returned solution array at row i, column k. -/
def arrEntry2 : Arr → ℕ → ℕ → ℝ
  | .a0 v, _, _ => v
  | .a1 _ f, i, _ => f i
  | .a2 _ _ f, i, k => f i k

/-- Unwraps a successful solve result (junk 0-D zero on error). -/
def exVal : Except SolveError Arr → Arr
  | .ok a => a
  | .error _ => .a0 0

/-- The solution array QR._backward builds for a 1-D right-hand side f,
in terms of the stored Q and R. -/
def x1Of (Q R : Mat) (f : ℕ → ℝ) : Arr :=
  if R.cols = 1 then
    Arr.a0 (bsub R.entry (min R.rows R.cols)
      (fun c => dotn Q.rows (fun r => Q.entry r c) f) 0)
  else
    Arr.a1 R.cols (fun i => bsub R.entry (min R.rows R.cols)
      (fun c => dotn Q.rows (fun r => Q.entry r c) f) i)

/-- The reshaped y QR._backward stores for a 1-D right-hand side. -/
def y1Of (Q : Mat) (f : ℕ → ℝ) : Arr :=
  Arr.a2 Q.cols 1 (fun i _ => dotn Q.rows (fun r => Q.entry r i) f)

/-- The solution array QR._backward builds for a 2-D right-hand side. -/
def x2Of (Q R : Mat) (kk : ℕ) (f : ℕ → ℕ → ℝ) : Arr :=
  Arr.a2 R.cols kk (fun i k => bsub R.entry (min R.rows R.cols)
    (fun c => dotn Q.rows (fun r => Q.entry r c) (fun r => f r k)) i)

/-- The y QR._backward stores for a 2-D right-hand side. -/
def y2Of (Q : Mat) (kk : ℕ) (f : ℕ → ℕ → ℝ) : Arr :=
  Arr.a2 Q.cols kk
    (fun c j => dotn Q.rows (fun r => Q.entry r c) (fun r => f r j))

theorem householder_state_Q (s : Engine) :
    (s.householder).1.Q = some (s.householder).2.1 := rfl

theorem householder_state_R (s : Engine) :
    (s.householder).1.R = some (s.householder).2.2 := rfl

theorem householder_backup (s : Engine) :
    (s.householder).1.backup = s.backup := rfl

theorem householder_Q_rows (s : Engine) :
    (s.householder).2.1.rows = s.backup.rows := by
  cases hr : s.reduce <;> simp [Engine.householder, hr]

theorem householder_R_cols (s : Engine) :
    (s.householder).2.2.cols = s.backup.cols := by
  cases hr : s.reduce <;> simp [Engine.householder, hr]

theorem householder_R_K (s : Engine) :
    min (s.householder).2.2.rows (s.householder).2.2.cols
      = min s.backup.rows s.backup.cols := by
  cases hr : s.reduce <;> simp [Engine.householder, hr]

theorem householder_R_entry (s : Engine) :
    (s.householder).2.2.entry
      = hhR s.backup.rows s.backup.cols s.backup.entry := by
  cases hr : s.reduce <;> simp [Engine.householder, hr]

theorem householder_Q_entry (s : Engine) :
    (s.householder).2.1.entry
      = hhQ s.backup.rows (min s.backup.rows s.backup.cols)
          s.backup.entry := by
  cases hr : s.reduce <;> simp [Engine.householder, hr]

theorem solve_unfold (s : Engine) (b : Arr) :
    s.solve b = (({ s with b := some b }).householder).1.backward
      ((s.householder).2.1) ((s.householder).2.2) b := rfl

theorem backward_mismatch_a1 (s : Engine) (Q R : Mat) (n : ℕ) (f : ℕ → ℝ)
    (hn : ¬ n = Q.rows) :
    s.backward Q R (.a1 n f) = (s, .error .shapeMismatch) := by
  have hd : dotQT Q (.a1 n f) = .error .shapeMismatch := by
    simp only [dotQT]
    rw [if_neg hn]
  unfold Engine.backward
  rw [hd]

theorem backward_mismatch_a2 (s : Engine) (Q R : Mat) (m kk : ℕ)
    (f : ℕ → ℕ → ℝ) (hm : ¬ m = Q.rows) :
    s.backward Q R (.a2 m kk f) = (s, .error .shapeMismatch) := by
  have hd : dotQT Q (.a2 m kk f) = .error .shapeMismatch := by
    simp only [dotQT]
    rw [if_neg hm]
  unfold Engine.backward
  rw [hd]

theorem backward_ok_a1 (s : Engine) (Q R : Mat) (n : ℕ) (f : ℕ → ℝ)
    (hn : n = Q.rows) :
    s.backward Q R (.a1 n f)
      = ({ s with y := some (y1Of Q f), x := some (x1Of Q R f) },
          .ok (x1Of Q R f)) := by
  have hd : dotQT Q (.a1 n f)
      = .ok (.a1 Q.cols (fun c => dotn Q.rows (fun r => Q.entry r c) f)) := by
    simp only [dotQT]
    rw [if_pos hn]
  unfold Engine.backward
  rw [hd]
  rfl

theorem backward_ok_a2 (s : Engine) (Q R : Mat) (m kk : ℕ)
    (f : ℕ → ℕ → ℝ) (hm : m = Q.rows) :
    s.backward Q R (.a2 m kk f)
      = ({ s with y := some (y2Of Q kk f), x := some (x2Of Q R kk f) },
          .ok (x2Of Q R kk f)) := by
  have hd : dotQT Q (.a2 m kk f)
      = .ok (.a2 Q.cols kk
          (fun c j => dotn Q.rows (fun r => Q.entry r c) (fun r => f r j))) := by
    simp only [dotQT]
    rw [if_pos hm]
  unfold Engine.backward
  rw [hd]
  rfl

theorem backward_backup (s : Engine) (Q R : Mat) (b : Arr) :
    ((s.backward Q R b).1).backup = s.backup := by
  unfold Engine.backward
  cases hdq : dotQT Q b with
  | error e => rfl
  | ok y0 => rfl

/-! ## Claim C7 -/

/-- Claim C7: no operation modifies the pristine backup captured at
construction, and a second householder call on the updated engine state
returns exactly the same pair (Q, R) as the first (the computation reads
only the backup and the reduce flag, and is deterministic). -/
theorem claim_C7_backup_immutable_and_idempotent :
    ∀ s : Engine,
      ((s.gram_schmidt).1.backup = s.backup) ∧
      ((s.gram_schmidt_modified).1.backup = s.backup) ∧
      ((s.householder).1.backup = s.backup) ∧
      ((s.decompose).1.backup = s.backup) ∧
      (∀ b, ((s.solve b).1).backup = s.backup) ∧
      ((((s.householder).1).householder).2 = (s.householder).2) := by
  intro s
  refine ⟨rfl, rfl, rfl, rfl, ?_, rfl⟩
  intro b
  show (((({ s with b := some b }).householder).1).backward
    ((s.householder).2.1) ((s.householder).2.2) b).1.backup = s.backup
  rw [backward_backup]
  rfl

/-! ## Claim C3 -/

/-- Claim C3: back substitution computes row i (for i < K) as the
right-hand-side entry minus the descending Kahan-accumulated sum of
R[i,j] * x[j] for j = K-1 .. i+1, divided by R[i,i]; the Kahan accumulator
is exact over the reals, so this equals the textbook sum over j > i; and
solving a two-column right-hand side yields, column by column, exactly the
solutions of the two independent 1-D solves. -/
theorem claim_C3_backsubstitution_and_columns :
    (∀ l : List ℝ, kahanResult (kahanRun l) = l.sum) ∧
    (∀ (Rm : ℕ → ℕ → ℝ) (K : ℕ) (ycol : ℕ → ℝ) (i : ℕ), i < K →
      bsub Rm K ycol i
        = (ycol i - kahanResult (kahanRun ((List.range (K - 1 - i)).map
            (fun t => Rm i (K - 1 - t) * bsub Rm K ycol (K - 1 - t))))) /
          Rm i i ∧
      bsub Rm K ycol i
        = (ycol i - ∑ j ∈ Finset.Ico (i + 1) K, Rm i j * bsub Rm K ycol j) /
          Rm i i) ∧
    (∀ (A : Mat) (red : Bool) (f : ℕ → ℕ → ℝ) (k i : ℕ), k < 2 →
      i < A.cols →
      (∃ x2, ((QRinit A red).solve (.a2 A.rows 2 f)).2 = Except.ok x2) ∧
      arrEntry2 (exVal (((QRinit A red).solve (.a2 A.rows 2 f)).2)) i k
        = arrEntry1 (exVal (((QRinit A red).solve
            (.a1 A.rows (fun r => f r k))).2)) i) := by
  refine ⟨kahan_exact, ?_, ?_⟩
  · intro Rm K ycol i hiK
    refine ⟨bsub_assigned Rm K ycol i hiK, ?_⟩
    rw [bsub_assigned Rm K ycol i hiK, kahan_exact,
      bsub_list_sum Rm K ycol i hiK]
  · intro A red f k i hk hi
    have hs : (QRinit A red).backup = A := rfl
    have hQr : A.rows = ((QRinit A red).householder).2.1.rows :=
      (householder_Q_rows (QRinit A red)).symm
    have h2 := backward_ok_a2
      (({ QRinit A red with b := some (.a2 A.rows 2 f) }).householder).1
      ((QRinit A red).householder).2.1 ((QRinit A red).householder).2.2
      A.rows 2 f hQr
    have h1 := backward_ok_a1
      (({ QRinit A red with
          b := some (.a1 A.rows (fun r => f r k)) }).householder).1
      ((QRinit A red).householder).2.1 ((QRinit A red).householder).2.2
      A.rows (fun r => f r k) hQr
    rw [solve_unfold, h2]
    rw [solve_unfold, h1]
    refine ⟨⟨_, rfl⟩, ?_⟩
    show arrEntry2
      (x2Of ((QRinit A red).householder).2.1
        ((QRinit A red).householder).2.2 2 f) i k
      = arrEntry1
        (x1Of ((QRinit A red).householder).2.1
          ((QRinit A red).householder).2.2 (fun r => f r k)) i
    have hcols : ((QRinit A red).householder).2.2.cols = A.cols :=
      householder_R_cols (QRinit A red)
    unfold x2Of x1Of arrEntry2 arrEntry1
    by_cases hN : ((QRinit A red).householder).2.2.cols = 1
    · rw [if_pos hN]
      have hi0 : i = 0 := by omega
      rw [hi0]
    · rw [if_neg hN]

/-- Witness for the C3 theorem: a 1 x 1 system evaluated concretely, and
the column claim instantiated on the 1 x 1 input [[1]]. -/
theorem claim_C3_witness :
    ((0:ℕ) < 1 ∧ bsub (fun _ _ => (2:ℝ)) 1 (fun _ => 6) 0 = 3) ∧
    ((0:ℕ) < 2 ∧ (0:ℕ) < (Mat.mk 1 1 exOne).cols ∧
      arrEntry2 (exVal (((QRinit ⟨1, 1, exOne⟩ false).solve
        (.a2 (Mat.mk 1 1 exOne).rows 2 (fun _ _ => 1))).2)) 0 0
        = arrEntry1 (exVal (((QRinit ⟨1, 1, exOne⟩ false).solve
            (.a1 (Mat.mk 1 1 exOne).rows
              (fun r => (fun _ _ => (1:ℝ)) r 0))).2)) 0) := by
  constructor
  · refine ⟨by decide, ?_⟩
    have h := (claim_C3_backsubstitution_and_columns.2.1 (fun _ _ => (2:ℝ)) 1
      (fun _ => 6) 0 (by decide)).2
    rw [h]
    rw [Finset.Ico_self, Finset.sum_empty]
    norm_num
  · refine ⟨by decide, by decide, ?_⟩
    exact (claim_C3_backsubstitution_and_columns.2.2 ⟨1, 1, exOne⟩ false
      (fun _ _ => 1) 0 0 (by decide) (by decide)).2

/-! ## Claim C10 -/

/-- Claim C10: for an underdetermined A (M < N), back substitution only
assigns rows 0..K-1 = 0..M-1 of the (N-row) solution, so every row of x
with index at least M is exactly the zeros-initialized 0; the solve call
itself succeeds for every well-shaped right-hand side. -/
theorem claim_C10_tail_rows_zero :
    ∀ (A : Mat) (red : Bool) (b : Arr),
      1 ≤ A.rows → A.rows < A.cols → b.dim0 = A.rows →
      (b.ndim = 1 ∨ b.ndim = 2) →
      (∃ x, ((QRinit A red).solve b).2 = Except.ok x) ∧
      (∀ i k, A.rows ≤ i →
        arrEntry2 (exVal (((QRinit A red).solve b).2)) i k = 0) := by
  intro A red b h1 hMN hb hnd
  have hQr : ((QRinit A red).householder).2.1.rows = A.rows :=
    householder_Q_rows (QRinit A red)
  have hK : min ((QRinit A red).householder).2.2.rows
      ((QRinit A red).householder).2.2.cols = min A.rows A.cols :=
    householder_R_K (QRinit A red)
  have hKM : min A.rows A.cols = A.rows := min_eq_left (le_of_lt hMN)
  have hcols : ((QRinit A red).householder).2.2.cols = A.cols :=
    householder_R_cols (QRinit A red)
  cases b with
  | a0 x =>
    rcases hnd with h | h <;> simp [Arr.ndim] at h
  | a1 n f =>
    have hn : n = ((QRinit A red).householder).2.1.rows := by
      rw [hQr]
      exact hb
    rw [solve_unfold, backward_ok_a1 _ _ _ _ _ hn]
    refine ⟨⟨_, rfl⟩, ?_⟩
    intro i k hi
    show arrEntry2 (x1Of ((QRinit A red).householder).2.1
      ((QRinit A red).householder).2.2 f) i k = 0
    unfold x1Of
    rw [if_neg (by rw [hcols]; omega :
      ¬ ((QRinit A red).householder).2.2.cols = 1)]
    show bsub ((QRinit A red).householder).2.2.entry
      (min ((QRinit A red).householder).2.2.rows
        ((QRinit A red).householder).2.2.cols) _ i = 0
    apply bsub_zero_of_ge
    rw [hK, hKM]
    exact hi
  | a2 m kk f =>
    have hm : m = ((QRinit A red).householder).2.1.rows := by
      rw [hQr]
      exact hb
    rw [solve_unfold, backward_ok_a2 _ _ _ _ _ _ hm]
    refine ⟨⟨_, rfl⟩, ?_⟩
    intro i k hi
    show arrEntry2 (x2Of ((QRinit A red).householder).2.1
      ((QRinit A red).householder).2.2 kk f) i k = 0
    show bsub ((QRinit A red).householder).2.2.entry
      (min ((QRinit A red).householder).2.2.rows
        ((QRinit A red).householder).2.2.cols) _ i = 0
    apply bsub_zero_of_ge
    rw [hK, hKM]
    exact hi

/-- Witness for the C10 theorem on the 1 x 2 input [[1, 2]]. -/
theorem claim_C10_witness :
    (1:ℕ) ≤ (Mat.mk 1 2 exC1).rows ∧
    (Mat.mk 1 2 exC1).rows < (Mat.mk 1 2 exC1).cols ∧
    (Arr.a1 1 (fun _ => (3:ℝ))).dim0 = (Mat.mk 1 2 exC1).rows ∧
    ((∃ x, ((QRinit ⟨1, 2, exC1⟩ false).solve
        (.a1 1 (fun _ => (3:ℝ)))).2 = Except.ok x) ∧
      (∀ i k, (Mat.mk 1 2 exC1).rows ≤ i →
        arrEntry2 (exVal (((QRinit ⟨1, 2, exC1⟩ false).solve
          (.a1 1 (fun _ => (3:ℝ)))).2)) i k = 0)) :=
  ⟨by decide, by decide, by decide,
    claim_C10_tail_rows_zero ⟨1, 2, exC1⟩ false (.a1 1 (fun _ => (3:ℝ)))
      (by decide) (by decide) (by decide) (Or.inl (by decide))⟩

/-! ## Claim C4 -/

theorem backward_state_Q (s : Engine) (Q R : Mat) (b : Arr) :
    ((s.backward Q R b).1).Q = s.Q := by
  unfold Engine.backward
  cases hdq : dotQT Q b with
  | error e => rfl
  | ok y0 => rfl

theorem backward_state_R (s : Engine) (Q R : Mat) (b : Arr) :
    ((s.backward Q R b).1).R = s.R := by
  unfold Engine.backward
  cases hdq : dotQT Q b with
  | error e => rfl
  | ok y0 => rfl

/-- The returned result of QR._backward depends on Q and R only through
Q's row count and entries, R's column count and entries, and the block
size min(R.rows, R.cols). -/
theorem backward_result_congr (s s' : Engine) (Q Q' R R' : Mat) (b : Arr)
    (hQr : Q.rows = Q'.rows) (hQe : Q.entry = Q'.entry)
    (hRc : R.cols = R'.cols) (hRe : R.entry = R'.entry)
    (hK : min R.rows R.cols = min R'.rows R'.cols) :
    (s.backward Q R b).2 = (s'.backward Q' R' b).2 := by
  cases b with
  | a0 x =>
    have hL : (s.backward Q R (.a0 x)).2
        = Except.ok (.a2 R.cols 1 (fun i k =>
            bsub R.entry (min R.rows R.cols)
              (fun c => Q.entry k c * x) i)) := rfl
    have hR' : (s'.backward Q' R' (.a0 x)).2
        = Except.ok (.a2 R'.cols 1 (fun i k =>
            bsub R'.entry (min R'.rows R'.cols)
              (fun c => Q'.entry k c * x) i)) := rfl
    rw [hL, hR', hK, hRc, hRe, hQe]
  | a1 n f =>
    by_cases hn : n = Q.rows
    · have hn' : n = Q'.rows := by rw [hn, hQr]
      rw [backward_ok_a1 s Q R n f hn, backward_ok_a1 s' Q' R' n f hn']
      show Except.ok (x1Of Q R f) = Except.ok (x1Of Q' R' f)
      unfold x1Of
      rw [hK, hRc, hRe, hQe, hQr]
    · have hn' : ¬ n = Q'.rows := by rw [← hQr]; exact hn
      rw [backward_mismatch_a1 s Q R n f hn,
        backward_mismatch_a1 s' Q' R' n f hn']
  | a2 m kk f =>
    by_cases hm : m = Q.rows
    · have hm' : m = Q'.rows := by rw [hm, hQr]
      rw [backward_ok_a2 s Q R m kk f hm, backward_ok_a2 s' Q' R' m kk f hm']
      show Except.ok (x2Of Q R kk f) = Except.ok (x2Of Q' R' kk f)
      unfold x2Of
      rw [hK, hRc, hRe, hQe, hQr]
    · have hm' : ¬ m = Q'.rows := by rw [← hQr]; exact hm
      rw [backward_mismatch_a2 s Q R m kk f hm,
        backward_mismatch_a2 s' Q' R' m kk f hm']

/-- Claim C4, amended: solve runs QR.householder with the engine's reduce
flag (not always the full factorization): the Q and R it stores have full
shapes (M, M) and (M, N) when reduce is unset but truncated shapes (M, K)
and (K, N) with K = min(M, N) when reduce is set; the solution returned by
solve is nevertheless identical for both flag values. -/
theorem claim_C4_solve_honors_reduce :
    (∀ (s : Engine) (b : Arr),
      ((s.solve b).1).Q = some ((s.householder).2.1) ∧
      ((s.solve b).1).R = some ((s.householder).2.2)) ∧
    (∀ s : Engine,
      (s.householder).2.1.rows = s.backup.rows ∧
      (s.householder).2.2.cols = s.backup.cols ∧
      (s.reduce = true →
        (s.householder).2.1.cols = min s.backup.rows s.backup.cols ∧
        (s.householder).2.2.rows = min s.backup.rows s.backup.cols) ∧
      (s.reduce = false →
        (s.householder).2.1.cols = s.backup.rows ∧
        (s.householder).2.2.rows = s.backup.rows)) ∧
    (∀ (A : Mat) (b : Arr),
      ((QRinit A true).solve b).2 = ((QRinit A false).solve b).2) := by
  refine ⟨?_, ?_, ?_⟩
  · intro s b
    constructor
    · rw [solve_unfold, backward_state_Q]
      rfl
    · rw [solve_unfold, backward_state_R]
      rfl
  · intro s
    refine ⟨householder_Q_rows s, householder_R_cols s, ?_, ?_⟩
    · intro hr
      constructor <;> simp [Engine.householder, hr]
    · intro hr
      constructor <;> simp [Engine.householder, hr]
  · intro A b
    rw [solve_unfold, solve_unfold]
    apply backward_result_congr
    · rw [householder_Q_rows, householder_Q_rows]
      rfl
    · rw [householder_Q_entry, householder_Q_entry]
      rfl
    · rw [householder_R_cols, householder_R_cols]
      rfl
    · rw [householder_R_entry, householder_R_entry]
      rfl
    · rw [householder_R_K, householder_R_K]
      rfl

/-- The 2 x 1 matrix [[1], [0]]. -/
def exTall : ℕ → ℕ → ℝ := fun r _ => if r = 0 then 1 else 0

/-- Claim C4, counterexample: on a reduce-flagged engine for the 2 x 1
input [[1], [0]], solve leaves a 2 x 1 Q (the reduced factorization) in
the engine state, not the 2 x 2 full Q the claim asserts. -/
theorem claim_C4_counterexample :
    (((QRinit ⟨2, 1, exTall⟩ true).solve (.a1 2 (fun _ => 1))).1.Q).map
      (fun q => (q.rows, q.cols)) = some (2, 1) ∧
    ((2, 1) : ℕ × ℕ) ≠ (2, 2) := by
  constructor
  · rfl
  · decide

/-- Witness for the C4 theorem: the reduce-flag shape clauses discharged
on a concrete reduce-flagged engine. -/
theorem claim_C4_witness :
    (QRinit ⟨2, 1, exTall⟩ true).reduce = true ∧
    ((QRinit ⟨2, 1, exTall⟩ true).householder).2.1.cols
      = min (Mat.mk 2 1 exTall).rows (Mat.mk 2 1 exTall).cols ∧
    ((QRinit ⟨2, 1, exTall⟩ true).householder).2.2.rows
      = min (Mat.mk 2 1 exTall).rows (Mat.mk 2 1 exTall).cols :=
  ⟨rfl,
    (claim_C4_solve_honors_reduce.2.1 (QRinit ⟨2, 1, exTall⟩ true)).2.2.1
      rfl⟩

/-! ## Claim C6 -/

/-- Claim C6, amended: a right-hand side whose leading dimension differs
from A's row count does make solve fail with the shape-mismatch error, but
the error is raised at the y = Q.T b product inside _backward, after the
full factorization has already run: the failed call has stored b and the
factorization results Q and R in the engine state; only the y and x
attributes are left untouched. -/
theorem claim_C6_mismatch_after_factorization :
    ∀ (s : Engine) (b : Arr), (b.ndim = 1 ∨ b.ndim = 2) →
      b.dim0 ≠ s.backup.rows →
      (s.solve b).2 = .error .shapeMismatch ∧
      ((s.solve b).1).Q = some ((s.householder).2.1) ∧
      ((s.solve b).1).R = some ((s.householder).2.2) ∧
      ((s.solve b).1).b = some b ∧
      ((s.solve b).1).y = s.y ∧
      ((s.solve b).1).x = s.x := by
  intro s b hnd hdim
  have hQrows : (s.householder).2.1.rows = s.backup.rows :=
    householder_Q_rows s
  cases b with
  | a0 x => rcases hnd with h | h <;> simp [Arr.ndim] at h
  | a1 n f =>
    have hn : ¬ n = (s.householder).2.1.rows := by
      rw [hQrows]
      exact hdim
    rw [solve_unfold, backward_mismatch_a1 _ _ _ _ _ hn]
    exact ⟨rfl, rfl, rfl, rfl, rfl, rfl⟩
  | a2 m kk f =>
    have hm : ¬ m = (s.householder).2.1.rows := by
      rw [hQrows]
      exact hdim
    rw [solve_unfold, backward_mismatch_a2 _ _ _ _ _ _ hm]
    exact ⟨rfl, rfl, rfl, rfl, rfl, rfl⟩

/-- Claim C6, counterexample: on the 1 x 1 engine for [[1]] with the
badly-shaped right-hand side of length 2, solve does error, but the engine
state afterwards holds a computed Q (the factorization ran), whereas it
held none before the call. -/
theorem claim_C6_counterexample :
    ((QRinit ⟨1, 1, exOne⟩ false).solve (.a1 2 (fun _ => 0))).2
        = .error .shapeMismatch ∧
    (((QRinit ⟨1, 1, exOne⟩ false).solve
        (.a1 2 (fun _ => 0))).1.Q).isSome = true ∧
    (QRinit ⟨1, 1, exOne⟩ false).Q = none :=
  ⟨rfl, rfl, rfl⟩

/-- Witness for the C6 theorem at a concrete mismatched call. -/
theorem claim_C6_witness :
    ((Arr.a1 2 (fun _ => (0:ℝ))).ndim = 1 ∨
      (Arr.a1 2 (fun _ => (0:ℝ))).ndim = 2) ∧
    (Arr.a1 2 (fun _ => (0:ℝ))).dim0
      ≠ (QRinit ⟨1, 1, exOne⟩ false).backup.rows ∧
    (((QRinit ⟨1, 1, exOne⟩ false).solve (.a1 2 (fun _ => (0:ℝ)))).2
        = .error .shapeMismatch ∧
      (((QRinit ⟨1, 1, exOne⟩ false).solve (.a1 2 (fun _ => (0:ℝ)))).1).Q
        = some (((QRinit ⟨1, 1, exOne⟩ false).householder).2.1) ∧
      (((QRinit ⟨1, 1, exOne⟩ false).solve (.a1 2 (fun _ => (0:ℝ)))).1).R
        = some (((QRinit ⟨1, 1, exOne⟩ false).householder).2.2) ∧
      (((QRinit ⟨1, 1, exOne⟩ false).solve (.a1 2 (fun _ => (0:ℝ)))).1).b
        = some (.a1 2 (fun _ => (0:ℝ))) ∧
      (((QRinit ⟨1, 1, exOne⟩ false).solve (.a1 2 (fun _ => (0:ℝ)))).1).y
        = (QRinit ⟨1, 1, exOne⟩ false).y ∧
      (((QRinit ⟨1, 1, exOne⟩ false).solve (.a1 2 (fun _ => (0:ℝ)))).1).x
        = (QRinit ⟨1, 1, exOne⟩ false).x) :=
  ⟨Or.inl (by decide), by decide,
    claim_C6_mismatch_after_factorization (QRinit ⟨1, 1, exOne⟩ false)
      (.a1 2 (fun _ => (0:ℝ))) (Or.inl (by decide)) (by decide)⟩

/-! ## Claim C9 -/

theorem sign_mul_abs (x : ℝ) : sign x * |x| = x := by
  rw [← sign_mul_self_eq_abs, ← mul_assoc, sign_mul_sign, one_mul]

theorem oneone_norm (a : ℝ) : l2_norm 1 (subcol (fun _ _ => a) 0) = |a| := by
  unfold l2_norm
  rw [dotn_succ, dotn_zero]
  show Real.sqrt (0 + a * a) = |a|
  rw [zero_add, Real.sqrt_mul_self_eq_abs]

theorem oneone_v0 (a : ℝ) : reflVec 1 (fun _ _ => a) 0 0 = 2 * a := by
  show subcol (fun _ _ => a) 0 0 +
      sign (subcol (fun _ _ => a) 0 0) *
        l2_norm 1 (subcol (fun _ _ => a) 0) * basis_vec 0 0 = 2 * a
  rw [oneone_norm]
  show a + sign a * |a| * 1 = 2 * a
  rw [mul_one, sign_mul_abs]
  ring

theorem oneone_dvv (a : ℝ) :
    dotn 1 (reflVec 1 (fun _ _ => a) 0) (reflVec 1 (fun _ _ => a) 0)
      = 4 * (a * a) := by
  rw [dotn_succ, dotn_zero, oneone_v0]
  ring

/-- The back-substituted value of the complete 1 x 1 system: for A = [[a]]
and the right-hand side [b0] the pipeline produces b0 / a exactly (over
the reals; for a = 0 the division is the real-number junk value 0 rather
than numpy's non-finite float). -/
theorem one_by_one_value (a b0 : ℝ) :
    bsub (hhR 1 1 (fun _ _ => a)) 1
      (fun c => dotn 1 (fun r => hhQ 1 1 (fun _ _ => a) r c) (fun _ => b0)) 0
      = b0 / a := by
  have hb : bsub (hhR 1 1 (fun _ _ => a)) 1
      (fun c => dotn 1 (fun r => hhQ 1 1 (fun _ _ => a) r c) (fun _ => b0)) 0
      = dotn 1 (fun r => hhQ 1 1 (fun _ _ => a) r 0) (fun _ => b0)
        / hhR 1 1 (fun _ _ => a) 0 0 := by
    rw [bsub_assigned _ _ _ 0 (by norm_num)]
    have h0 : (1:ℕ) - 1 - 0 = 0 := rfl
    rw [h0, List.range_zero, List.map_nil]
    show (dotn 1 (fun r => hhQ 1 1 (fun _ _ => a) r 0) (fun _ => b0)
        - kahanResult (kahanRun [])) / hhR 1 1 (fun _ _ => a) 0 0
      = dotn 1 (fun r => hhQ 1 1 (fun _ _ => a) r 0) (fun _ => b0)
        / hhR 1 1 (fun _ _ => a) 0 0
    rw [show kahanResult (kahanRun []) = (0:ℝ) from rfl, sub_zero]
  rw [hb, dotn_succ, dotn_zero, zero_add]
  show hhQ 1 1 (fun _ _ => a) 0 0 * b0 / hhR 1 1 (fun _ _ => a) 0 0 = b0 / a
  by_cases hskip :
      |dotn (1 - 0) (reflVec 1 (fun _ _ => a) 0) (reflVec 1 (fun _ _ => a) 0)|
        ≤ atol
  · have hR : hhR 1 1 (fun _ _ => a) 0 0 = a := by
      show hhStep 1 1 0 (fun _ _ => a) 0 0 = a
      rw [hhStep_skip 1 1 0 _ hskip]
    have hskip' : |dotn (1 - (1 - 1))
        (vsAt 1 1 (fun _ _ => a) (1 - 1)) (vsAt 1 1 (fun _ _ => a) (1 - 1))|
          ≤ atol := hskip
    have hQ : hhQ 1 1 (fun _ _ => a) 0 0 = 1 := by
      show qApply 1 (1 - 1) (vsAt 1 1 (fun _ _ => a) (1 - 1))
          (qColSteps 1 1 (fun _ _ => a) (basis_vec 0) 0) 0 = 1
      rw [qApply_skip 1 (1 - 1) _ _ hskip']
      rfl
    rw [hQ, hR, one_mul]
  · have ha : a ≠ 0 := by
      intro h0
      apply hskip
      have hz : dotn (1 - 0) (reflVec 1 (fun _ _ => a) 0)
          (reflVec 1 (fun _ _ => a) 0) = 0 := by
        show dotn 1 (reflVec 1 (fun _ _ => a) 0)
            (reflVec 1 (fun _ _ => a) 0) = 0
        rw [oneone_dvv, h0]
        ring
      rw [hz, abs_zero]
      unfold atol
      norm_num
    have hR : hhR 1 1 (fun _ _ => a) 0 0 = -a := by
      show hhStep 1 1 0 (fun _ _ => a) 0 0 = -a
      rw [hhStep_diag 1 1 0 (fun _ _ => a) (by norm_num) (by norm_num) hskip]
      show -(sign a * l2_norm 1 (subcol (fun _ _ => a) 0)) = -a
      rw [oneone_norm, sign_mul_abs]
    have hskip' : ¬ |dotn (1 - (1 - 1))
        (vsAt 1 1 (fun _ _ => a) (1 - 1)) (vsAt 1 1 (fun _ _ => a) (1 - 1))|
          ≤ atol := hskip
    have hQ : hhQ 1 1 (fun _ _ => a) 0 0 = -1 := by
      show qApply 1 (1 - 1) (vsAt 1 1 (fun _ _ => a) (1 - 1))
          (qColSteps 1 1 (fun _ _ => a) (basis_vec 0) 0) 0 = -1
      unfold qApply
      rw [if_neg hskip']
      show basis_vec 0 0 - 2 * dotn 1 (reflVec 1 (fun _ _ => a) 0)
          (fun t => basis_vec 0 (t + 0)) / dotn 1 (reflVec 1 (fun _ _ => a) 0)
            (reflVec 1 (fun _ _ => a) 0) * reflVec 1 (fun _ _ => a) 0 0 = -1
      have hdot : dotn 1 (reflVec 1 (fun _ _ => a) 0)
          (fun t => basis_vec 0 (t + 0)) = 2 * a := by
        rw [dotn_succ, dotn_zero]
        show 0 + reflVec 1 (fun _ _ => a) 0 0 * 1 = 2 * a
        rw [oneone_v0]
        ring
      rw [hdot, oneone_dvv, oneone_v0]
      rw [show basis_vec 0 0 = (1:ℝ) from rfl]
      field_simp
      ring
    rw [hQ, hR, neg_one_mul]
    exact neg_div_neg_eq b0 a

/-- QR.solve on the 1 x 1 engine for A = [[a]] with right-hand side [b0]:
the returned value is the 0-D scalar b0 / a. -/
theorem one_by_one_solve (a b0 : ℝ) :
    ((QRinit ⟨1, 1, fun _ _ => a⟩ false).solve (.a1 1 (fun _ => b0))).2
      = Except.ok (.a0 (b0 / a)) := by
  rw [solve_unfold, backward_ok_a1 _ _ _ _ _
    (show (1:ℕ) = ((QRinit ⟨1, 1, fun _ _ => a⟩ false).householder).2.1.rows
      from rfl)]
  show Except.ok (x1Of ((QRinit ⟨1, 1, fun _ _ => a⟩ false).householder).2.1
      ((QRinit ⟨1, 1, fun _ _ => a⟩ false).householder).2.2 (fun _ => b0))
    = Except.ok (Arr.a0 (b0 / a))
  have hx : x1Of ((QRinit ⟨1, 1, fun _ _ => a⟩ false).householder).2.1
      ((QRinit ⟨1, 1, fun _ _ => a⟩ false).householder).2.2 (fun _ => b0)
      = Arr.a0 (bsub (hhR 1 1 (fun _ _ => a)) 1
          (fun c => dotn 1 (fun r => hhQ 1 1 (fun _ _ => a) r c)
            (fun _ => b0)) 0) := by
    unfold x1Of
    rw [if_pos
      (show ((QRinit ⟨1, 1, fun _ _ => a⟩ false).householder).2.2.cols = 1
        from rfl)]
    rfl
  rw [hx, one_by_one_value]

/-- Claim C9, amended: solve's output shape mirrors b's except in one
boundary case: a 1-D right-hand side of length M yields a 1-D result of
length N when N >= 2, but a 0-D scalar when N = 1 (the squeeze of the
(1, 1) intermediate drops both axes, so the result is not the 1-element
1-D vector the claim states); a 2-D right-hand side of shape (M, kk)
yields a 2-D result of shape (N, kk); and for the 1 x 1 boundary case
A = [[a]], b = [b0] the returned scalar value is exactly b0 / a. -/
theorem claim_C9_solve_shapes :
    (∀ (s : Engine) (f : ℕ → ℝ), 2 ≤ s.backup.cols →
      ∃ g, (s.solve (.a1 s.backup.rows f)).2
        = Except.ok (.a1 s.backup.cols g)) ∧
    (∀ (s : Engine) (f : ℕ → ℝ), s.backup.cols = 1 →
      ∃ v, (s.solve (.a1 s.backup.rows f)).2 = Except.ok (.a0 v)) ∧
    (∀ (s : Engine) (kk : ℕ) (f : ℕ → ℕ → ℝ),
      ∃ g, (s.solve (.a2 s.backup.rows kk f)).2
        = Except.ok (.a2 s.backup.cols kk g)) ∧
    (∀ a b0 : ℝ,
      ((QRinit ⟨1, 1, fun _ _ => a⟩ false).solve (.a1 1 (fun _ => b0))).2
        = Except.ok (.a0 (b0 / a))) := by
  refine ⟨?_, ?_, ?_, ?_⟩
  · intro s f hN
    have hQr : s.backup.rows = (s.householder).2.1.rows :=
      (householder_Q_rows s).symm
    rw [solve_unfold, backward_ok_a1 _ _ _ _ _ hQr]
    have hRc := householder_R_cols s
    have hne : ¬ (s.householder).2.2.cols = 1 := by
      rw [hRc]
      omega
    have hx : x1Of (s.householder).2.1 (s.householder).2.2 f
        = Arr.a1 ((s.householder).2.2).cols
            (fun i => bsub ((s.householder).2.2).entry
              (min ((s.householder).2.2).rows ((s.householder).2.2).cols)
              (fun c => dotn ((s.householder).2.1).rows
                (fun r => ((s.householder).2.1).entry r c) f) i) := by
      unfold x1Of
      rw [if_neg hne]
    refine ⟨fun i => bsub ((s.householder).2.2).entry
        (min ((s.householder).2.2).rows ((s.householder).2.2).cols)
        (fun c => dotn ((s.householder).2.1).rows
          (fun r => ((s.householder).2.1).entry r c) f) i, ?_⟩
    show Except.ok (x1Of (s.householder).2.1 (s.householder).2.2 f)
      = Except.ok (Arr.a1 s.backup.cols
          (fun i => bsub ((s.householder).2.2).entry
            (min ((s.householder).2.2).rows ((s.householder).2.2).cols)
            (fun c => dotn ((s.householder).2.1).rows
              (fun r => ((s.householder).2.1).entry r c) f) i))
    rw [hx, ← hRc]
  · intro s f hN1
    have hQr : s.backup.rows = (s.householder).2.1.rows :=
      (householder_Q_rows s).symm
    rw [solve_unfold, backward_ok_a1 _ _ _ _ _ hQr]
    have hRc := householder_R_cols s
    have h1 : (s.householder).2.2.cols = 1 := by
      rw [hRc]
      exact hN1
    have hx : x1Of (s.householder).2.1 (s.householder).2.2 f
        = Arr.a0 (bsub ((s.householder).2.2).entry
            (min ((s.householder).2.2).rows ((s.householder).2.2).cols)
            (fun c => dotn ((s.householder).2.1).rows
              (fun r => ((s.householder).2.1).entry r c) f) 0) := by
      unfold x1Of
      rw [if_pos h1]
    refine ⟨bsub ((s.householder).2.2).entry
        (min ((s.householder).2.2).rows ((s.householder).2.2).cols)
        (fun c => dotn ((s.householder).2.1).rows
          (fun r => ((s.householder).2.1).entry r c) f) 0, ?_⟩
    show Except.ok (x1Of (s.householder).2.1 (s.householder).2.2 f)
      = Except.ok (Arr.a0 (bsub ((s.householder).2.2).entry
          (min ((s.householder).2.2).rows ((s.householder).2.2).cols)
          (fun c => dotn ((s.householder).2.1).rows
            (fun r => ((s.householder).2.1).entry r c) f) 0))
    rw [hx]
  · intro s kk f
    have hQr : s.backup.rows = (s.householder).2.1.rows :=
      (householder_Q_rows s).symm
    rw [solve_unfold, backward_ok_a2 _ _ _ _ _ _ hQr]
    have hRc := householder_R_cols s
    refine ⟨fun i k => bsub ((s.householder).2.2).entry
        (min ((s.householder).2.2).rows ((s.householder).2.2).cols)
        (fun c => dotn ((s.householder).2.1).rows
          (fun r => ((s.householder).2.1).entry r c) (fun r => f r k)) i, ?_⟩
    show Except.ok (x2Of (s.householder).2.1 (s.householder).2.2 kk f)
      = Except.ok (Arr.a2 s.backup.cols kk
          (fun i k => bsub ((s.householder).2.2).entry
            (min ((s.householder).2.2).rows ((s.householder).2.2).cols)
            (fun c => dotn ((s.householder).2.1).rows
              (fun r => ((s.householder).2.1).entry r c) (fun r => f r k)) i))
    unfold x2Of
    rw [← hRc]
  · intro a b0
    exact one_by_one_solve a b0

/-- Claim C9, counterexample: on the 1 x 1 system A = [[2]], b = [4], the
1-D input produces the 0-D scalar 2 (numpy squeeze of the (1, 1) result
drops both axes), not a 1-D vector of length 1: a 0-D array differs from
every 1-D array. -/
theorem claim_C9_counterexample :
    ((QRinit ⟨1, 1, fun _ _ => (2:ℝ)⟩ false).solve
        (.a1 1 (fun _ => (4:ℝ)))).2 = Except.ok (.a0 2) ∧
    (Arr.a0 (2:ℝ)).ndim = 0 ∧ ∀ (n : ℕ) (g : ℕ → ℝ), Arr.a0 (2:ℝ) ≠ .a1 n g := by
  refine ⟨?_, rfl, ?_⟩
  · rw [one_by_one_solve 2 4]
    norm_num
  · intro n g h
    exact Arr.noConfusion h

/-- Witness for the C9 theorem: solving the 1 x 2 engine of [[1, 2]] with
a 1-D right-hand side of its row count yields a 1-D result of length 2. -/
theorem claim_C9_witness :
    2 ≤ (QRinit ⟨1, 2, exC1⟩ false).backup.cols ∧
    (∃ g, ((QRinit ⟨1, 2, exC1⟩ false).solve
        (.a1 (QRinit ⟨1, 2, exC1⟩ false).backup.rows (fun _ => 1))).2
      = Except.ok (.a1 (QRinit ⟨1, 2, exC1⟩ false).backup.cols g)) :=
  ⟨by decide, claim_C9_solve_shapes.1 (QRinit ⟨1, 2, exC1⟩ false)
      (fun _ => 1) (by decide)⟩

/-! ## Claim C5 -/

/-- The rank-deficient 2 x 2 matrix [[3, 3], [4, 4]] with two identical
columns. -/
def exDup : ℕ → ℕ → ℝ := fun r _ => if r = 0 then 3 else 4

theorem exDup_dot00 : dotn 2 (ucolGS 2 exDup 0) (ucolGS 2 exDup 0) = 25 := by
  rw [dotn_succ, dotn_succ, dotn_zero]
  show 0 + exDup 0 0 * exDup 0 0 + exDup 1 0 * exDup 1 0 = 25
  norm_num [exDup]

theorem exDup_norm0 : l2_norm 2 (ucolGS 2 exDup 0) = 5 := by
  unfold l2_norm
  rw [exDup_dot00]
  rw [show (25:ℝ) = 5 ^ 2 by norm_num]
  exact Real.sqrt_sq (by norm_num)

theorem exDup_q0 : ∀ r, qcolGS 2 exDup 0 r = exDup r 0 / 5 := by
  intro r
  rw [qcolGS_eq_normalize]
  show ucolGS 2 exDup 0 r / l2_norm 2 (ucolGS 2 exDup 0) = exDup r 0 / 5
  rw [exDup_norm0]
  rfl

theorem exDup_q0_fun : qcolGS 2 exDup 0 = fun r => exDup r 0 / 5 :=
  funext exDup_q0

theorem exDup_q0dot : dotn 2 (fun r => exDup r 1) (qcolGS 2 exDup 0) = 5 := by
  rw [exDup_q0_fun, dotn_succ, dotn_succ, dotn_zero]
  show 0 + exDup 0 1 * (exDup 0 0 / 5) + exDup 1 1 * (exDup 1 0 / 5) = 5
  norm_num [exDup]

theorem exDup_q0q0 : dotn 2 (qcolGS 2 exDup 0) (qcolGS 2 exDup 0) = 1 := by
  rw [exDup_q0_fun, dotn_succ, dotn_succ, dotn_zero]
  show 0 + exDup 0 0 / 5 * (exDup 0 0 / 5)
      + exDup 1 0 / 5 * (exDup 1 0 / 5) = 1
  norm_num [exDup]

/-- The unnormalized second column of classical Gram-Schmidt on the
duplicated-columns matrix is identically zero. -/
theorem exDup_u1 : ∀ r, ucolGS 2 exDup 1 r = 0 := by
  intro r
  show gsInner 2 (gsUpTo 2 exDup 1) 1 1 r = 0
  rw [gsInner_succ_eq 2 exDup 1 0 (by norm_num)]
  have hcol : gsInner 2 (gsUpTo 2 exDup 1) 1 0 = fun r' => exDup r' 1 := by
    funext r'
    show gsUpTo 2 exDup 1 r' 1 = exDup r' 1
    exact gsUpTo_col_orig 2 exDup 1 1 (le_refl 1) r'
  rw [hcol, exDup_q0dot, exDup_q0q0]
  show exDup r 1 - 5 / 1 * qcolGS 2 exDup 0 r = 0
  rw [exDup_q0 r]
  show exDup r 0 - 5 / 1 * (exDup r 0 / 5) = 0
  ring

/-- The second column of the Q returned by classical Gram-Schmidt on the
duplicated-columns matrix is the all-zero garbage column 0 / 0 = 0 (over
the reals; in numpy it is 0/0 = nan), with no error raised. -/
theorem gsQ_exDup_col1 : ∀ r, gsQ 2 2 exDup r 1 = 0 := by
  intro r
  rw [gsQ_eq_qcolGS 2 2 exDup 1 (by norm_num) r, qcolGS_eq_normalize]
  show ucolGS 2 exDup 1 r / l2_norm 2 (ucolGS 2 exDup 1) = 0
  rw [exDup_u1 r, zero_div]

/-- Claim C5, amended: no typed error for rank deficiency, singularity or
a zero pivot exists anywhere in the module.  For every engine state and
every well-shaped right-hand side (1-D of length M or 2-D with leading
dimension M), solve completes and returns ok: the only error the code can
raise is the shape mismatch of np.dot, and a (numerically) zero diagonal
entry R[i,i] flows through the division as a junk value instead of
raising DivisionByZero / SingularMatrix.  Likewise Gram-Schmidt on the
rank-deficient matrix [[3, 3], [4, 4]] with two identical columns does
not fail with RankDeficiency: its second Q column is silently the
all-zero garbage column obtained by normalizing the zero residual. -/
theorem claim_C5_no_typed_errors :
    (∀ (s : Engine) (f : ℕ → ℝ),
      ∃ x, (s.solve (.a1 s.backup.rows f)).2 = Except.ok x) ∧
    (∀ (s : Engine) (kk : ℕ) (f : ℕ → ℕ → ℝ),
      ∃ x, (s.solve (.a2 s.backup.rows kk f)).2 = Except.ok x) ∧
    (∀ r, gsQ 2 2 exDup r 1 = 0) := by
  refine ⟨?_, ?_, gsQ_exDup_col1⟩
  · intro s f
    have hQr : s.backup.rows = (s.householder).2.1.rows :=
      (householder_Q_rows s).symm
    rw [solve_unfold, backward_ok_a1 _ _ _ _ _ hQr]
    exact ⟨_, rfl⟩
  · intro s kk f
    have hQr : s.backup.rows = (s.householder).2.1.rows :=
      (householder_Q_rows s).symm
    rw [solve_unfold, backward_ok_a2 _ _ _ _ _ _ hQr]
    exact ⟨_, rfl⟩

/-- Claim C5, counterexample: the singular 1 x 1 system A = [[0]] is
solved with no error at all: solve returns ok carrying the junk scalar 0
from the zero-pivot division (numpy: inf/nan, still no DivisionByZero);
and the Q returned by gram_schmidt on the rank-deficient
[[3, 3], [4, 4]] has an all-zero second column instead of a
RankDeficiency failure. -/
theorem claim_C5_counterexample :
    ((QRinit ⟨1, 1, fun _ _ => (0:ℝ)⟩ false).solve
        (.a1 1 (fun _ => (5:ℝ)))).2 = Except.ok (.a0 0) ∧
    ((QRinit ⟨2, 2, exDup⟩ false).gram_schmidt).2.1.entry 0 1 = 0 ∧
    ((QRinit ⟨2, 2, exDup⟩ false).gram_schmidt).2.1.entry 1 1 = 0 := by
  refine ⟨?_, ?_, ?_⟩
  · rw [one_by_one_solve 0 5, div_zero]
  · show gsQ 2 2 exDup 0 1 = 0
    exact gsQ_exDup_col1 0
  · show gsQ 2 2 exDup 1 1 = 0
    exact gsQ_exDup_col1 1

end

end Linalg
